import Mathlib

/-!
Verification of the layout engine in `src/render.rs` (a Wadler/Hughes-style
pretty printer).  The document tree, the fitting probe and the rendering loop
are embedded shallowly: text is modelled as `List Char` (column cost = length),
machine integers as `Nat`/`Int` (the Rust code computes the remaining budget
as `width as isize - pos as isize`, which we mirror with `Int` subtraction),
and the fallible output sink as a state-passing record of operations returning
`Except`.  The Rust trait methods `push_annotation` / `pop_annotation` are
named `pushAnn` / `popAnn` here; all other names follow the source.
-/

namespace PrettyRender

/-- The document tree (`Doc` in the source).  A `Text` atom carries its
characters; the shared-ownership parameter of the Rust type is irrelevant to
behaviour and is dropped. -/
inductive Doc (A : Type) : Type where
  | Nil : Doc A
  | Append (l r : Doc A) : Doc A
  | Text (s : List Char) : Doc A
  | Space : Doc A
  | Newline : Doc A
  | FlatAlt (b f : Doc A) : Doc A
  | Nest (off : Nat) (d : Doc A) : Doc A
  | Group (d : Doc A) : Doc A
  | Annotated (a : A) (d : Doc A) : Doc A
  | Union (l r : Doc A) : Doc A
  deriving Repr, DecidableEq

/-- Rendering mode (`Mode` in `best`). -/
inductive Mode : Type where
  | Break : Mode
  | Flat : Mode
  deriving Repr, DecidableEq

/-- Size measure used only for termination of the loop embeddings. -/
def Doc.size {A : Type} : Doc A → Nat
  | .Nil => 1
  | .Append l r => 1 + l.size + r.size
  | .Text _ => 1
  | .Space => 1
  | .Newline => 1
  | .FlatAlt b f => 1 + b.size + f.size
  | .Nest _ d => 1 + d.size
  | .Group d => 1 + d.size
  | .Annotated _ d => 1 + d.size
  | .Union l r => 1 + l.size + r.size

/-- A work-stack entry `(indent, mode, doc)`, `Cmd` in the source. -/
abbrev Cmd (A : Type) := Nat × Mode × Doc A

/-- Sum of sizes of the documents on a work stack. -/
def stackSize {A : Type} (bcmds : List (Cmd A)) : Nat :=
  (bcmds.map (fun c => c.2.2.size)).sum

/-- The fitting probe (`fitting` in the source).  `fcmds` is the scratch stack
of candidate documents (the source clears and seeds it with the candidate
before the loop; we take the seeded list as argument), `bdocs` the documents of
the outer pending work stack, top first (the source walks `bcmds[bidx].2` for
`bidx` from the top down), `rem` the remaining budget, `mode` the currently
simulated mode (`Flat` at entry; the source sets it to `Break` whenever it
moves on to an outer pending item), and `newline_fits` the predicate applied
to the simulated mode when a `Newline` is reached. -/
def fitting {A : Type} (fcmds : List (Doc A)) (bdocs : List (Doc A)) (rem : Int)
    (mode : Mode) (newline_fits : Mode → Bool) : Bool :=
  match fcmds with
  | [] =>
    match bdocs with
    | [] => true
    | d :: bs => fitting [d] bs rem Mode.Break newline_fits
  | doc :: fs =>
    match doc with
    | .Nil => fitting fs bdocs rem mode newline_fits
    | .Append l r => fitting (l :: r :: fs) bdocs rem mode newline_fits
    | .Space =>
      match mode with
      | .Flat =>
        if rem - 1 < 0 then false else fitting fs bdocs (rem - 1) mode newline_fits
      | .Break => true
    | .Newline => newline_fits mode
    | .Text s =>
      if rem - (s.length : Int) < 0 then false
      else fitting fs bdocs (rem - (s.length : Int)) mode newline_fits
    | .FlatAlt b f =>
      fitting ((match mode with | .Break => b | .Flat => f) :: fs) bdocs rem mode newline_fits
    | .Nest _ d => fitting (d :: fs) bdocs rem mode newline_fits
    | .Group d => fitting (d :: fs) bdocs rem mode newline_fits
    | .Annotated _ d => fitting (d :: fs) bdocs rem mode newline_fits
    | .Union _ r => fitting (r :: fs) bdocs rem mode newline_fits
  termination_by (((fcmds.map Doc.size).sum + (bdocs.map Doc.size).sum), bdocs.length)
  decreasing_by
    all_goals simp_wf
    all_goals first
      | (apply Prod.Lex.right; omega)
      | (apply Prod.Lex.left <;> simp [Doc.size] <;> omega)
      | (apply Prod.Lex.left <;> cases mode <;> simp [Doc.size] <;> omega)

/-- The output sink capability (`Render` + `RenderAnnotated` traits).
`write_str` attempts to write a prefix of the chunk and returns how many
characters it consumed together with the updated sink state; `pushAnn` /
`popAnn` embed the trait methods `push_annotation` / `pop_annotation`. -/
structure Sink (σ E A : Type) : Type where
  write_str : σ → List Char → Except E (Nat × σ)
  pushAnn : σ → A → Except E σ
  popAnn : σ → Except E σ

/-- `Render::write_str_all`: loop `write_str` until the chunk is fully
consumed, propagating the first error.  The source's loop does not terminate
when the sink consumes nothing of a nonempty chunk; that case (outside the
sink progress contract every real sink satisfies) is cut off and returns the
state unchanged. -/
def write_str_all {σ E A : Type} (snk : Sink σ E A) (st : σ) (s : List Char) :
    Except E σ :=
  match hs : s with
  | [] => .ok st
  | _ :: _ =>
    match snk.write_str st s with
    | .error e => .error e
    | .ok (count, st') =>
      if h : 0 < count then write_str_all snk st' (s.drop count)
      else .ok st'
  termination_by s.length
  decreasing_by simp_wf; subst hs; simp [List.length_drop]; omega

/-- The 100-space constant `SPACES` from `write_spaces`. -/
def SPACES : List Char := List.replicate 100 ' '

/-- The loop of `write_spaces`: write chunks of at most `SPACES.length`
spaces with `write_str`, accumulating the consumed counts, until `spaces`
have been inserted.  As for `write_str_all`, a sink that consumes nothing is
cut off. -/
def write_spaces_go {σ E A : Type} (snk : Sink σ E A) (st : σ)
    (spaces inserted : Nat) : Except E σ :=
  if inserted < spaces then
    match snk.write_str st (SPACES.take (min SPACES.length (spaces - inserted))) with
    | .error e => .error e
    | .ok (count, st') =>
      if h : 0 < count then write_spaces_go snk st' spaces (inserted + count)
      else .ok st'
  else .ok st
  termination_by spaces - inserted
  decreasing_by simp_wf; omega

/-- `write_spaces` from the source. -/
def write_spaces {σ E A : Type} (snk : Sink σ E A) (st : σ) (spaces : Nat) :
    Except E σ :=
  write_spaces_go snk st spaces 0

/-- `write_newline`: a newline character followed by `ind` spaces. -/
def write_newline {σ E A : Type} (snk : Sink σ E A) (st : σ) (ind : Nat) :
    Except E σ :=
  match write_str_all snk st ['\n'] with
  | .error e => .error e
  | .ok st' => write_spaces snk st' ind

/-- The annotation check performed at the end of each iteration of the main
loop of `best`: if the innermost recorded annotation level equals the current
work-stack size, pop it and issue one `pop_annotation`. -/
def checkAnn {σ E A : Type} (snk : Sink σ E A) (st : σ) (depth : Nat)
    (annotation_levels : List Nat) : Except E (σ × List Nat) :=
  if annotation_levels.head? = some depth then
    match snk.popAnn st with
    | .error e => .error e
    | .ok st' => .ok (st', annotation_levels.tail)
  else .ok (st, annotation_levels)

/-- The main loop of `best`.  The head of `bcmds` is the command currently
being processed (the source's `cmd`), the tail the pending work stack; `pos`
is the current column, `annotation_levels` the stack of recorded work-stack
sizes for open annotations.  Cases that the source handles with `continue`
become tail calls with a rewritten head; cases that fall through to `break`
perform their writes, run `checkAnn` against the remaining stack size and
continue with the tail. -/
def bestRun {σ E A : Type} (snk : Sink σ E A) (width : Nat) (st : σ) (pos : Nat)
    (bcmds : List (Cmd A)) (annotation_levels : List Nat) : Except E σ :=
  match bcmds with
  | [] => .ok st
  | (ind, mode, doc) :: rest =>
    match doc with
    | .Nil =>
      match checkAnn snk st rest.length annotation_levels with
      | .error e => .error e
      | .ok (st', anns') => bestRun snk width st' pos rest anns'
    | .Append l r =>
      bestRun snk width st pos ((ind, mode, l) :: (ind, mode, r) :: rest) annotation_levels
    | .FlatAlt b f =>
      bestRun snk width st pos
        ((ind, mode, match mode with | .Break => b | .Flat => f) :: rest) annotation_levels
    | .Group d =>
      match mode with
      | .Flat => bestRun snk width st pos ((ind, Mode.Flat, d) :: rest) annotation_levels
      | .Break =>
        if fitting [d] (rest.map (fun c => c.2.2)) ((width : Int) - (pos : Int))
            Mode.Flat (fun m => m == Mode.Break) then
          bestRun snk width st pos ((ind, Mode.Flat, d) :: rest) annotation_levels
        else
          bestRun snk width st pos ((ind, Mode.Break, d) :: rest) annotation_levels
    | .Nest off d =>
      bestRun snk width st pos ((ind + off, mode, d) :: rest) annotation_levels
    | .Space =>
      match mode with
      | .Flat =>
        match write_spaces snk st 1 with
        | .error e => .error e
        | .ok st' =>
          match checkAnn snk st' rest.length annotation_levels with
          | .error e => .error e
          | .ok (st'', anns') => bestRun snk width st'' pos rest anns'
      | .Break =>
        match write_newline snk st ind with
        | .error e => .error e
        | .ok st' =>
          match checkAnn snk st' rest.length annotation_levels with
          | .error e => .error e
          | .ok (st'', anns') => bestRun snk width st'' ind rest anns'
    | .Newline =>
      match write_newline snk st ind with
      | .error e => .error e
      | .ok st' =>
        match checkAnn snk st' rest.length annotation_levels with
        | .error e => .error e
        | .ok (st'', anns') => bestRun snk width st'' ind rest anns'
    | .Text s =>
      match write_str_all snk st s with
      | .error e => .error e
      | .ok st' =>
        match checkAnn snk st' rest.length annotation_levels with
        | .error e => .error e
        | .ok (st'', anns') => bestRun snk width st'' (pos + s.length) rest anns'
    | .Annotated a d =>
      match snk.pushAnn st a with
      | .error e => .error e
      | .ok st' =>
        bestRun snk width st' pos ((ind, mode, d) :: rest) (rest.length :: annotation_levels)
    | .Union l r =>
      if fitting [l] (rest.map (fun c => c.2.2)) ((width : Int) - (pos : Int))
          Mode.Flat (fun _ => true) then
        bestRun snk width st pos ((ind, mode, l) :: rest) annotation_levels
      else
        bestRun snk width st pos ((ind, mode, r) :: rest) annotation_levels
  termination_by stackSize bcmds
  decreasing_by
    all_goals simp_wf
    all_goals simp [stackSize, Doc.size]
    all_goals first
      | omega
      | (cases mode <;> simp [Doc.size] <;> omega)

/-- `best` from the source: render `doc` at `width` into the sink, starting
with the work stack `[(0, Break, doc)]`, column 0 and no open annotations. -/
def best {σ E A : Type} (snk : Sink σ E A) (st : σ) (doc : Doc A) (width : Nat) :
    Except E σ :=
  bestRun snk width st 0 [(0, Mode.Break, doc)] []

/-- One observable interaction of the engine with its sink: a `write_str`
chunk (as the canonical fully-consuming sink receives it), or an annotation
push/pop. -/
inductive Event (A : Type) : Type where
  | write (s : List Char) : Event A
  | push (a : A) : Event A
  | pop : Event A
  deriving Repr, DecidableEq

/-- The canonical sink: it always consumes a chunk in full, never fails, and
records every call it receives. -/
def traceSink (A : Type) : Sink (List (Event A)) Empty A where
  write_str st s := .ok (s.length, st ++ [Event.write s])
  pushAnn st a := .ok (st ++ [Event.push a])
  popAnn st := .ok (st ++ [Event.pop])

/-- Extract the value of an infallible computation. -/
def eventsOf {α : Type} : Except Empty α → α
  | .ok a => a
  | .error e => e.elim

/-- The full event trace of rendering `doc` at `width`. -/
def renderEvents {A : Type} (doc : Doc A) (width : Nat) : List (Event A) :=
  eventsOf (best (traceSink A) [] doc width)

/-- The characters written to the sink, in order. -/
def chars {A : Type} : List (Event A) → List Char
  | [] => []
  | .write s :: es => s ++ chars es
  | .push _ :: es => chars es
  | .pop :: es => chars es

/-- The subsequence of annotation push/pop events. -/
def annEvents {A : Type} : List (Event A) → List (Event A)
  | [] => []
  | .write _ :: es => annEvents es
  | .push a :: es => Event.push a :: annEvents es
  | .pop :: es => Event.pop :: annEvents es

/-- Number of `push_annotation` calls in a trace. -/
def countPush {A : Type} : List (Event A) → Nat
  | [] => 0
  | .push _ :: es => countPush es + 1
  | _ :: es => countPush es

/-- Number of `pop_annotation` calls in a trace. -/
def countPop {A : Type} : List (Event A) → Nat
  | [] => 0
  | .pop :: es => countPop es + 1
  | _ :: es => countPop es

/-- Modelled from the spec: the "fully-flattened text length" of a document —
each `Space` counts one column, hard line breaks are ignored, `FlatAlt`
resolves to its flat branch and `Union` to its first (flat) alternative.
This is the premise notion of the fits-on-one-line law; it is written from the
spec's words, not from the source. -/
def flatLen {A : Type} : Doc A → Nat
  | .Nil => 0
  | .Append l r => flatLen l + flatLen r
  | .Text s => s.length
  | .Space => 1
  | .Newline => 0
  | .FlatAlt _ f => flatLen f
  | .Nest _ d => flatLen d
  | .Group d => flatLen d
  | .Annotated _ d => flatLen d
  | .Union l _ => flatLen l

/-- Modelled from the spec: the text of the fully flattened ("flat form")
rendering of a document — `Space` becomes one space character, `FlatAlt`
resolves to its flat branch, `Union` to its first alternative, and the other
wrappers are dropped.  Written from the spec's words for comparison with the
engine's output. -/
def flatText {A : Type} : Doc A → List Char
  | .Nil => []
  | .Append l r => flatText l ++ flatText r
  | .Text s => s
  | .Space => [' ']
  | .Newline => ['\n']
  | .FlatAlt _ f => flatText f
  | .Nest _ d => flatText d
  | .Group d => flatText d
  | .Annotated _ d => flatText d
  | .Union l _ => flatText l

/-- No `Union` node occurs along the flat-mode rendering path (`FlatAlt`
contributes only its flat branch there). -/
def unionFreeFlat {A : Type} : Doc A → Bool
  | .Nil => true
  | .Append l r => unionFreeFlat l && unionFreeFlat r
  | .Text _ => true
  | .Space => true
  | .Newline => true
  | .FlatAlt _ f => unionFreeFlat f
  | .Nest _ d => unionFreeFlat d
  | .Group d => unionFreeFlat d
  | .Annotated _ d => unionFreeFlat d
  | .Union _ _ => false

/-- No `Newline` node occurs along the flat-mode rendering path. -/
def nlFreeFlat {A : Type} : Doc A → Bool
  | .Nil => true
  | .Append l r => nlFreeFlat l && nlFreeFlat r
  | .Text _ => true
  | .Space => true
  | .Newline => false
  | .FlatAlt _ f => nlFreeFlat f
  | .Nest _ d => nlFreeFlat d
  | .Group d => nlFreeFlat d
  | .Annotated _ d => nlFreeFlat d
  | .Union _ _ => true

/-- No newline character occurs inside a `Text` atom along the flat-mode
rendering path (the spec's invariant on `Text`). -/
def textsNLFree {A : Type} : Doc A → Bool
  | .Nil => true
  | .Append l r => textsNLFree l && textsNLFree r
  | .Text s => !s.contains '\n'
  | .Space => true
  | .Newline => true
  | .FlatAlt _ f => textsNLFree f
  | .Nest _ d => textsNLFree d
  | .Group d => textsNLFree d
  | .Annotated _ d => textsNLFree d
  | .Union _ _ => true

/-- The column advance the engine actually performs when rendering a document
in `Flat` mode: `Text` advances by its length, while a flat `Space` leaves
`pos` unchanged (the source writes the space without touching `pos`). -/
def textAdv {A : Type} : Doc A → Nat
  | .Nil => 0
  | .Append l r => textAdv l + textAdv r
  | .Text s => s.length
  | .Space => 0
  | .Newline => 0
  | .FlatAlt _ f => textAdv f
  | .Nest _ d => textAdv d
  | .Group d => textAdv d
  | .Annotated _ d => textAdv d
  | .Union l _ => textAdv l

/-- Modelled from the spec: a fitting probe that simulates outer pending
work-stack items "in their already-decided indent/mode" (spec §4.2), i.e.
it takes each pending item together with its recorded mode and switches the
simulated mode to that recorded mode.  The source instead forces `Break`;
this definition exists only to compare the spec's wording with the code. -/
def fittingSpec {A : Type} (fcmds : List (Doc A)) (bcmds : List (Mode × Doc A))
    (rem : Int) (mode : Mode) (newline_fits : Mode → Bool) : Bool :=
  match fcmds with
  | [] =>
    match bcmds with
    | [] => true
    | (m, d) :: bs => fittingSpec [d] bs rem m newline_fits
  | doc :: fs =>
    match doc with
    | .Nil => fittingSpec fs bcmds rem mode newline_fits
    | .Append l r => fittingSpec (l :: r :: fs) bcmds rem mode newline_fits
    | .Space =>
      match mode with
      | .Flat =>
        if rem - 1 < 0 then false else fittingSpec fs bcmds (rem - 1) mode newline_fits
      | .Break => true
    | .Newline => newline_fits mode
    | .Text s =>
      if rem - (s.length : Int) < 0 then false
      else fittingSpec fs bcmds (rem - (s.length : Int)) mode newline_fits
    | .FlatAlt b f =>
      fittingSpec ((match mode with | .Break => b | .Flat => f) :: fs) bcmds rem mode newline_fits
    | .Nest _ d => fittingSpec (d :: fs) bcmds rem mode newline_fits
    | .Group d => fittingSpec (d :: fs) bcmds rem mode newline_fits
    | .Annotated _ d => fittingSpec (d :: fs) bcmds rem mode newline_fits
    | .Union _ r => fittingSpec (r :: fs) bcmds rem mode newline_fits
  termination_by (((fcmds.map Doc.size).sum + ((bcmds.map Prod.snd).map Doc.size).sum),
    bcmds.length)
  decreasing_by
    all_goals simp_wf
    all_goals first
      | (apply Prod.Lex.right; omega)
      | (apply Prod.Lex.left <;> simp [Doc.size] <;> omega)
      | (apply Prod.Lex.left <;> cases mode <;> simp [Doc.size] <;> omega)

/-- Deliver one logical engine/sink interaction to a sink. -/
def applyEvent {σ E A : Type} (snk : Sink σ E A) (st : σ) : Event A → Except E σ
  | .write s => write_str_all snk st s
  | .push a => snk.pushAnn st a
  | .pop => snk.popAnn st

/-- Deliver a list of interactions in order, stopping at the first error and
returning it unchanged; the remaining events are never delivered. -/
def processEvents {σ E A : Type} (snk : Sink σ E A) (st : σ) :
    List (Event A) → Except E σ
  | [] => .ok st
  | e :: es =>
    match applyEvent snk st e with
    | .error err => .error err
    | .ok st' => processEvents snk st' es

/-- The chunks `write_spaces` offers to a fully-consuming sink. -/
def spacesChunks (spaces inserted : Nat) : List (List Char) :=
  if inserted < spaces then
    SPACES.take (min SPACES.length (spaces - inserted)) ::
      spacesChunks spaces (inserted + min SPACES.length (spaces - inserted))
  else []
  termination_by spaces - inserted
  decreasing_by simp_wf; simp [SPACES]; omega

/-- A sink whose `write_str` either fails or consumes the chunk in full. -/
def FullOrErr {σ E A : Type} (snk : Sink σ E A) : Prop :=
  ∀ st s, (∃ e, snk.write_str st s = .error e) ∨
    (∃ st', snk.write_str st s = .ok (s.length, st'))

/-- A sink that never fails, makes progress on every nonempty chunk (possibly
consuming only part of it), and whose state records, via the projections
`out` and `annp`, the characters accepted so far and the annotation push/pop
calls received so far. -/
structure Recording {σ E A : Type} (snk : Sink σ E A) (out : σ → List Char)
    (annp : σ → List (Event A)) : Prop where
  write_ok : ∀ st s c st', snk.write_str st s = .ok (c, st') →
    out st' = out st ++ s.take c ∧ annp st' = annp st
  write_progress : ∀ st s c st', s ≠ [] → snk.write_str st s = .ok (c, st') →
    0 < c ∧ c ≤ s.length
  write_total : ∀ st s, ∃ c st', snk.write_str st s = .ok (c, st')
  push_ok : ∀ st a, ∃ st', snk.pushAnn st a = .ok st' ∧ out st' = out st ∧
    annp st' = annp st ++ [Event.push a]
  pop_ok : ∀ st, ∃ st', snk.popAnn st = .ok st' ∧ out st' = out st ∧
    annp st' = annp st ++ [Event.pop]

/-- A recording sink that accepts a single character per `write_str` call. -/
def oneCharSink (A : Type) : Sink (List Char × List (Event A)) Empty A where
  write_str st s := .ok (min 1 s.length, (st.1 ++ s.take (min 1 s.length), st.2))
  pushAnn st a := .ok (st.1, st.2 ++ [Event.push a])
  popAnn st := .ok (st.1, st.2 ++ [Event.pop])

/-- A recording sink that accepts every chunk in full. -/
def fullSink (A : Type) : Sink (List Char × List (Event A)) Empty A where
  write_str st s := .ok (s.length, (st.1 ++ s, st.2))
  pushAnn st a := .ok (st.1, st.2 ++ [Event.push a])
  popAnn st := .ok (st.1, st.2 ++ [Event.pop])

/-- A sink that fails on every operation with a fixed error value. -/
def failSink (E A : Type) (e : E) : Sink Unit E A where
  write_str _ _ := .error e
  pushAnn _ _ := .error e
  popAnn _ := .error e

/-- The trace of events the engine emits from a given loop state. -/
def traceFrom {A : Type} (width pos : Nat) (bcmds : List (Cmd A))
    (anns : List Nat) : List (Event A) :=
  eventsOf (bestRun (traceSink A) width [] pos bcmds anns)

/-- The write events of one `write_str_all` call on the canonical sink. -/
def wEv {A : Type} (s : List Char) : List (Event A) :=
  if s.isEmpty then [] else [Event.write s]

/-- The write events of one `write_spaces` call on the canonical sink. -/
def spEv {A : Type} (n : Nat) : List (Event A) :=
  (spacesChunks n 0).map Event.write

/-- The write events of one `write_newline` call on the canonical sink. -/
def nlEv {A : Type} (ind : Nat) : List (Event A) :=
  Event.write ['\n'] :: spEv ind

/-- The pop event (if any) issued by `checkAnn`. -/
def popEv {A : Type} (anns : List Nat) (depth : Nat) : List (Event A) :=
  if anns.head? = some depth then [Event.pop] else []

/-- The annotation-level stack after `checkAnn`. -/
def nextAnns (anns : List Nat) (depth : Nat) : List Nat :=
  if anns.head? = some depth then anns.tail else anns

/-! ### Step equations for `fitting` and `bestRun` -/

theorem fitting_done {A : Type} (rem : Int) (mode : Mode) (nf : Mode → Bool) :
    fitting ([] : List (Doc A)) [] rem mode nf = true := by
  rw [fitting]

theorem fitting_next_bcmd {A : Type} (d : Doc A) (bs : List (Doc A)) (rem : Int)
    (mode : Mode) (nf : Mode → Bool) :
    fitting [] (d :: bs) rem mode nf = fitting [d] bs rem Mode.Break nf := by
  conv_lhs => rw [fitting]

theorem fitting_Nil {A : Type} (fs bs : List (Doc A)) (rem : Int) (mode : Mode)
    (nf : Mode → Bool) :
    fitting (Doc.Nil :: fs) bs rem mode nf = fitting fs bs rem mode nf := by
  conv_lhs => rw [fitting]

theorem fitting_Append {A : Type} (l r : Doc A) (fs bs : List (Doc A)) (rem : Int)
    (mode : Mode) (nf : Mode → Bool) :
    fitting (Doc.Append l r :: fs) bs rem mode nf =
      fitting (l :: r :: fs) bs rem mode nf := by
  conv_lhs => rw [fitting]

theorem fitting_Space_flat {A : Type} (fs bs : List (Doc A)) (rem : Int)
    (nf : Mode → Bool) :
    fitting (Doc.Space :: fs) bs rem Mode.Flat nf =
      if rem - 1 < 0 then false else fitting fs bs (rem - 1) Mode.Flat nf := by
  conv_lhs => rw [fitting]

theorem fitting_Space_break {A : Type} (fs bs : List (Doc A)) (rem : Int)
    (nf : Mode → Bool) :
    fitting (Doc.Space :: fs) bs rem Mode.Break nf = true := by
  conv_lhs => rw [fitting]

theorem fitting_Newline {A : Type} (fs bs : List (Doc A)) (rem : Int) (mode : Mode)
    (nf : Mode → Bool) :
    fitting (Doc.Newline :: fs) bs rem mode nf = nf mode := by
  conv_lhs => rw [fitting]

theorem fitting_Text {A : Type} (s : List Char) (fs bs : List (Doc A)) (rem : Int)
    (mode : Mode) (nf : Mode → Bool) :
    fitting (Doc.Text s :: fs) bs rem mode nf =
      if rem - (s.length : Int) < 0 then false
      else fitting fs bs (rem - (s.length : Int)) mode nf := by
  conv_lhs => rw [fitting]

theorem fitting_FlatAlt_flat {A : Type} (b f : Doc A) (fs bs : List (Doc A))
    (rem : Int) (nf : Mode → Bool) :
    fitting (Doc.FlatAlt b f :: fs) bs rem Mode.Flat nf =
      fitting (f :: fs) bs rem Mode.Flat nf := by
  conv_lhs => rw [fitting]

theorem fitting_FlatAlt_break {A : Type} (b f : Doc A) (fs bs : List (Doc A))
    (rem : Int) (nf : Mode → Bool) :
    fitting (Doc.FlatAlt b f :: fs) bs rem Mode.Break nf =
      fitting (b :: fs) bs rem Mode.Break nf := by
  conv_lhs => rw [fitting]

theorem fitting_Nest {A : Type} (off : Nat) (d : Doc A) (fs bs : List (Doc A))
    (rem : Int) (mode : Mode) (nf : Mode → Bool) :
    fitting (Doc.Nest off d :: fs) bs rem mode nf = fitting (d :: fs) bs rem mode nf := by
  conv_lhs => rw [fitting]

theorem fitting_Group {A : Type} (d : Doc A) (fs bs : List (Doc A)) (rem : Int)
    (mode : Mode) (nf : Mode → Bool) :
    fitting (Doc.Group d :: fs) bs rem mode nf = fitting (d :: fs) bs rem mode nf := by
  conv_lhs => rw [fitting]

theorem fitting_Annotated {A : Type} (a : A) (d : Doc A) (fs bs : List (Doc A))
    (rem : Int) (mode : Mode) (nf : Mode → Bool) :
    fitting (Doc.Annotated a d :: fs) bs rem mode nf =
      fitting (d :: fs) bs rem mode nf := by
  conv_lhs => rw [fitting]

theorem fitting_Union {A : Type} (l r : Doc A) (fs bs : List (Doc A)) (rem : Int)
    (mode : Mode) (nf : Mode → Bool) :
    fitting (Doc.Union l r :: fs) bs rem mode nf = fitting (r :: fs) bs rem mode nf := by
  conv_lhs => rw [fitting]

theorem bestRun_done {σ E A : Type} (snk : Sink σ E A) (width : Nat) (st : σ)
    (pos : Nat) (anns : List Nat) :
    bestRun snk width st pos [] anns = .ok st := by
  rw [bestRun]

theorem bestRun_Nil {σ E A : Type} (snk : Sink σ E A) (width : Nat) (st : σ)
    (pos ind : Nat) (mode : Mode) (rest : List (Cmd A)) (anns : List Nat) :
    bestRun snk width st pos ((ind, mode, Doc.Nil) :: rest) anns =
      match checkAnn snk st rest.length anns with
      | .error e => .error e
      | .ok (st', anns') => bestRun snk width st' pos rest anns' := by
  conv_lhs => rw [bestRun]

theorem bestRun_Append {σ E A : Type} (snk : Sink σ E A) (width : Nat) (st : σ)
    (pos ind : Nat) (mode : Mode) (l r : Doc A) (rest : List (Cmd A))
    (anns : List Nat) :
    bestRun snk width st pos ((ind, mode, Doc.Append l r) :: rest) anns =
      bestRun snk width st pos ((ind, mode, l) :: (ind, mode, r) :: rest) anns := by
  conv_lhs => rw [bestRun]

theorem bestRun_FlatAlt_flat {σ E A : Type} (snk : Sink σ E A) (width : Nat)
    (st : σ) (pos ind : Nat) (b f : Doc A) (rest : List (Cmd A)) (anns : List Nat) :
    bestRun snk width st pos ((ind, Mode.Flat, Doc.FlatAlt b f) :: rest) anns =
      bestRun snk width st pos ((ind, Mode.Flat, f) :: rest) anns := by
  conv_lhs => rw [bestRun]

theorem bestRun_FlatAlt_break {σ E A : Type} (snk : Sink σ E A) (width : Nat)
    (st : σ) (pos ind : Nat) (b f : Doc A) (rest : List (Cmd A)) (anns : List Nat) :
    bestRun snk width st pos ((ind, Mode.Break, Doc.FlatAlt b f) :: rest) anns =
      bestRun snk width st pos ((ind, Mode.Break, b) :: rest) anns := by
  conv_lhs => rw [bestRun]

theorem bestRun_Group_flat {σ E A : Type} (snk : Sink σ E A) (width : Nat)
    (st : σ) (pos ind : Nat) (d : Doc A) (rest : List (Cmd A)) (anns : List Nat) :
    bestRun snk width st pos ((ind, Mode.Flat, Doc.Group d) :: rest) anns =
      bestRun snk width st pos ((ind, Mode.Flat, d) :: rest) anns := by
  conv_lhs => rw [bestRun]

theorem bestRun_Group_break {σ E A : Type} (snk : Sink σ E A) (width : Nat)
    (st : σ) (pos ind : Nat) (d : Doc A) (rest : List (Cmd A)) (anns : List Nat) :
    bestRun snk width st pos ((ind, Mode.Break, Doc.Group d) :: rest) anns =
      if fitting [d] (rest.map (fun c => c.2.2)) ((width : Int) - (pos : Int))
          Mode.Flat (fun m => m == Mode.Break) then
        bestRun snk width st pos ((ind, Mode.Flat, d) :: rest) anns
      else
        bestRun snk width st pos ((ind, Mode.Break, d) :: rest) anns := by
  conv_lhs => rw [bestRun]

theorem bestRun_Nest {σ E A : Type} (snk : Sink σ E A) (width : Nat) (st : σ)
    (pos ind : Nat) (mode : Mode) (off : Nat) (d : Doc A) (rest : List (Cmd A))
    (anns : List Nat) :
    bestRun snk width st pos ((ind, mode, Doc.Nest off d) :: rest) anns =
      bestRun snk width st pos ((ind + off, mode, d) :: rest) anns := by
  conv_lhs => rw [bestRun]

theorem bestRun_Space_flat {σ E A : Type} (snk : Sink σ E A) (width : Nat)
    (st : σ) (pos ind : Nat) (rest : List (Cmd A)) (anns : List Nat) :
    bestRun snk width st pos ((ind, Mode.Flat, Doc.Space) :: rest) anns =
      match write_spaces snk st 1 with
      | .error e => .error e
      | .ok st' =>
        match checkAnn snk st' rest.length anns with
        | .error e => .error e
        | .ok (st'', anns') => bestRun snk width st'' pos rest anns' := by
  conv_lhs => rw [bestRun]

theorem bestRun_Space_break {σ E A : Type} (snk : Sink σ E A) (width : Nat)
    (st : σ) (pos ind : Nat) (rest : List (Cmd A)) (anns : List Nat) :
    bestRun snk width st pos ((ind, Mode.Break, Doc.Space) :: rest) anns =
      match write_newline snk st ind with
      | .error e => .error e
      | .ok st' =>
        match checkAnn snk st' rest.length anns with
        | .error e => .error e
        | .ok (st'', anns') => bestRun snk width st'' ind rest anns' := by
  conv_lhs => rw [bestRun]

theorem bestRun_Newline {σ E A : Type} (snk : Sink σ E A) (width : Nat) (st : σ)
    (pos ind : Nat) (mode : Mode) (rest : List (Cmd A)) (anns : List Nat) :
    bestRun snk width st pos ((ind, mode, Doc.Newline) :: rest) anns =
      match write_newline snk st ind with
      | .error e => .error e
      | .ok st' =>
        match checkAnn snk st' rest.length anns with
        | .error e => .error e
        | .ok (st'', anns') => bestRun snk width st'' ind rest anns' := by
  conv_lhs => rw [bestRun]

theorem bestRun_Text {σ E A : Type} (snk : Sink σ E A) (width : Nat) (st : σ)
    (pos ind : Nat) (mode : Mode) (s : List Char) (rest : List (Cmd A))
    (anns : List Nat) :
    bestRun snk width st pos ((ind, mode, Doc.Text s) :: rest) anns =
      match write_str_all snk st s with
      | .error e => .error e
      | .ok st' =>
        match checkAnn snk st' rest.length anns with
        | .error e => .error e
        | .ok (st'', anns') => bestRun snk width st'' (pos + s.length) rest anns' := by
  conv_lhs => rw [bestRun]

theorem bestRun_Annotated {σ E A : Type} (snk : Sink σ E A) (width : Nat)
    (st : σ) (pos ind : Nat) (mode : Mode) (a : A) (d : Doc A)
    (rest : List (Cmd A)) (anns : List Nat) :
    bestRun snk width st pos ((ind, mode, Doc.Annotated a d) :: rest) anns =
      match snk.pushAnn st a with
      | .error e => .error e
      | .ok st' =>
        bestRun snk width st' pos ((ind, mode, d) :: rest) (rest.length :: anns) := by
  conv_lhs => rw [bestRun]

theorem bestRun_union {σ E A : Type} (snk : Sink σ E A) (width : Nat) (st : σ)
    (pos ind : Nat) (mode : Mode) (l r : Doc A) (rest : List (Cmd A))
    (anns : List Nat) :
    bestRun snk width st pos ((ind, mode, Doc.Union l r) :: rest) anns =
      if fitting [l] (rest.map (fun c => c.2.2)) ((width : Int) - (pos : Int))
          Mode.Flat (fun _ => true) then
        bestRun snk width st pos ((ind, mode, l) :: rest) anns
      else
        bestRun snk width st pos ((ind, mode, r) :: rest) anns := by
  conv_lhs => rw [bestRun]

/-! ### Basic facts and canonical-sink closed forms -/

theorem Doc.size_pos {A : Type} (d : Doc A) : 0 < d.size := by
  cases d <;> simp [Doc.size]

@[simp] theorem chars_append {A : Type} (l1 l2 : List (Event A)) :
    chars (l1 ++ l2) = chars l1 ++ chars l2 := by
  induction l1 with
  | nil => simp [chars]
  | cons e es ih => cases e <;> simp [chars, ih]

@[simp] theorem annEvents_append {A : Type} (l1 l2 : List (Event A)) :
    annEvents (l1 ++ l2) = annEvents l1 ++ annEvents l2 := by
  induction l1 with
  | nil => simp [annEvents]
  | cons e es ih => cases e <;> simp [annEvents, ih]

@[simp] theorem chars_map_write {A : Type} (l : List (List Char)) :
    chars (l.map (Event.write (A := A))) = l.join := by
  induction l with
  | nil => simp [chars]
  | cons c cs ih => simp [chars, ih]

@[simp] theorem annEvents_map_write {A : Type} (l : List (List Char)) :
    annEvents (l.map (Event.write (A := A))) = [] := by
  induction l with
  | nil => simp [annEvents]
  | cons c cs ih => simp [annEvents, ih]

@[simp] theorem traceSink_write {A : Type} (evs : List (Event A)) (s : List Char) :
    (traceSink A).write_str evs s = .ok (s.length, evs ++ [Event.write s]) := rfl

@[simp] theorem traceSink_push {A : Type} (evs : List (Event A)) (a : A) :
    (traceSink A).pushAnn evs a = .ok (evs ++ [Event.push a]) := rfl

@[simp] theorem traceSink_pop {A : Type} (evs : List (Event A)) :
    (traceSink A).popAnn evs = .ok (evs ++ [Event.pop]) := rfl

theorem write_str_all_trace {A : Type} (evs : List (Event A)) (s : List Char) :
    write_str_all (traceSink A) evs s =
      .ok (evs ++ if s.isEmpty then [] else [Event.write s]) := by
  cases s with
  | nil => rw [write_str_all]; simp
  | cons c t =>
    rw [write_str_all]
    simp
    rw [write_str_all]

theorem checkAnn_trace {A : Type} (evs : List (Event A)) (depth : Nat)
    (anns : List Nat) :
    checkAnn (traceSink A) evs depth anns =
      .ok (if anns.head? = some depth then (evs ++ [Event.pop], anns.tail)
           else (evs, anns)) := by
  rw [checkAnn]
  split <;> simp

theorem spacesChunks_chars {A : Type} (spaces : Nat) :
    ∀ inserted, chars ((spacesChunks spaces inserted).map (Event.write (A := A))) =
      List.replicate (spaces - inserted) ' ' := by
  intro inserted
  induction inserted using spacesChunks.induct spaces with
  | case1 inserted hlt ih =>
    rw [spacesChunks]
    simp only [hlt, if_true, List.map_cons, chars, ih]
    simp only [SPACES, List.take_replicate, min_comm]
    rw [← List.replicate_add]
    congr 1
    simp [List.length_replicate]
    omega
  | case2 inserted hlt =>
    rw [spacesChunks]
    simp only [hlt, if_false]
    simp [chars]
    omega

theorem write_spaces_go_trace {A : Type} (spaces : Nat) :
    ∀ inserted (evs : List (Event A)),
      write_spaces_go (traceSink A) evs spaces inserted =
        .ok (evs ++ (spacesChunks spaces inserted).map Event.write) := by
  intro inserted
  induction inserted using spacesChunks.induct spaces with
  | case1 inserted hlt ih =>
    intro evs
    have hlen : (SPACES.take (min SPACES.length (spaces - inserted))).length
        = min SPACES.length (spaces - inserted) := by
      simp [SPACES]
    have hpos : 0 < (SPACES.take (min SPACES.length (spaces - inserted))).length := by
      rw [hlen]; simp [SPACES]; omega
    rw [write_spaces_go, spacesChunks]
    simp only [hlt, if_true, traceSink_write]
    rw [dif_pos hpos, hlen, ih]
    simp
  | case2 inserted hlt =>
    intro evs
    rw [write_spaces_go, spacesChunks]
    simp [hlt]

theorem write_spaces_trace {A : Type} (evs : List (Event A)) (n : Nat) :
    write_spaces (traceSink A) evs n =
      .ok (evs ++ (spacesChunks n 0).map Event.write) := by
  rw [write_spaces, write_spaces_go_trace]

theorem write_newline_trace {A : Type} (evs : List (Event A)) (ind : Nat) :
    write_newline (traceSink A) evs ind =
      .ok (evs ++ Event.write ['\n'] :: (spacesChunks ind 0).map Event.write) := by
  rw [write_newline, write_str_all_trace]
  simp [write_spaces_trace]

/-! ### The canonical trace: prefix property -/

theorem bestRun_trace_exists {A : Type} (w : Nat) :
    ∀ n (bcmds : List (Cmd A)) (pos : Nat) (anns : List Nat),
      stackSize bcmds ≤ n →
      ∃ δ, ∀ evs, bestRun (traceSink A) w evs pos bcmds anns = .ok (evs ++ δ) := by
  intro n
  induction n with
  | zero =>
    intro bcmds pos anns hle
    cases bcmds with
    | nil => exact ⟨[], fun evs => by simp [bestRun_done]⟩
    | cons c rest =>
      exfalso
      have := Doc.size_pos c.2.2
      simp [stackSize] at hle
      omega
  | succ n ih =>
    intro bcmds pos anns hle
    cases bcmds with
    | nil => exact ⟨[], fun evs => by simp [bestRun_done]⟩
    | cons c rest =>
      obtain ⟨ind, mode, doc⟩ := c
      have hrest : stackSize rest ≤ n := by
        have := Doc.size_pos doc
        simp [stackSize, Doc.size] at hle ⊢
        omega
      cases doc with
      | Nil =>
        by_cases h : anns.head? = some rest.length
        · obtain ⟨δ, hδ⟩ := ih rest pos anns.tail hrest
          refine ⟨Event.pop :: δ, fun evs => ?_⟩
          rw [bestRun_Nil, checkAnn_trace]
          simp only [h, if_true, reduceIte]
          rw [hδ]
          simp
        · obtain ⟨δ, hδ⟩ := ih rest pos anns hrest
          refine ⟨δ, fun evs => ?_⟩
          rw [bestRun_Nil, checkAnn_trace]
          simp only [h, if_false, reduceIte]
          rw [hδ]
      | Append l r =>
        have hle' : stackSize ((ind, mode, l) :: (ind, mode, r) :: rest) ≤ n := by
          simp [stackSize, Doc.size] at hle ⊢
          omega
        obtain ⟨δ, hδ⟩ := ih _ pos anns hle'
        exact ⟨δ, fun evs => by rw [bestRun_Append, hδ]⟩
      | FlatAlt b f =>
        cases mode with
        | Flat =>
          have hle' : stackSize ((ind, Mode.Flat, f) :: rest) ≤ n := by
            simp [stackSize, Doc.size] at hle ⊢
            omega
          obtain ⟨δ, hδ⟩ := ih _ pos anns hle'
          exact ⟨δ, fun evs => by rw [bestRun_FlatAlt_flat, hδ]⟩
        | Break =>
          have hle' : stackSize ((ind, Mode.Break, b) :: rest) ≤ n := by
            simp [stackSize, Doc.size] at hle ⊢
            omega
          obtain ⟨δ, hδ⟩ := ih _ pos anns hle'
          exact ⟨δ, fun evs => by rw [bestRun_FlatAlt_break, hδ]⟩
      | Group d =>
        have hle' : ∀ m, stackSize ((ind, m, d) :: rest) ≤ n := by
          intro m
          simp [stackSize, Doc.size] at hle ⊢
          omega
        cases mode with
        | Flat =>
          obtain ⟨δ, hδ⟩ := ih _ pos anns (hle' Mode.Flat)
          exact ⟨δ, fun evs => by rw [bestRun_Group_flat, hδ]⟩
        | Break =>
          by_cases hfit : fitting [d] (rest.map (fun c => c.2.2))
              ((w : Int) - (pos : Int)) Mode.Flat (fun m => m == Mode.Break)
          · obtain ⟨δ, hδ⟩ := ih _ pos anns (hle' Mode.Flat)
            refine ⟨δ, fun evs => ?_⟩
            rw [bestRun_Group_break]
            simp only [hfit, if_true, reduceIte]
            rw [hδ]
          · obtain ⟨δ, hδ⟩ := ih _ pos anns (hle' Mode.Break)
            refine ⟨δ, fun evs => ?_⟩
            rw [bestRun_Group_break]
            simp only [hfit, if_false, Bool.false_eq_true, reduceIte]
            rw [hδ]
      | Nest off d =>
        have hle' : stackSize ((ind + off, mode, d) :: rest) ≤ n := by
          simp [stackSize, Doc.size] at hle ⊢
          omega
        obtain ⟨δ, hδ⟩ := ih _ pos anns hle'
        exact ⟨δ, fun evs => by rw [bestRun_Nest, hδ]⟩
      | Space =>
        cases mode with
        | Flat =>
          by_cases h : anns.head? = some rest.length
          · obtain ⟨δ, hδ⟩ := ih rest pos anns.tail hrest
            refine ⟨(spacesChunks 1 0).map Event.write ++ Event.pop :: δ,
              fun evs => ?_⟩
            rw [bestRun_Space_flat]
            simp only [write_spaces_trace, checkAnn_trace, h, reduceIte]
            rw [hδ]
            simp
          · obtain ⟨δ, hδ⟩ := ih rest pos anns hrest
            refine ⟨(spacesChunks 1 0).map Event.write ++ δ, fun evs => ?_⟩
            rw [bestRun_Space_flat]
            simp only [write_spaces_trace, checkAnn_trace, h, reduceIte]
            rw [hδ]
            simp
        | Break =>
          by_cases h : anns.head? = some rest.length
          · obtain ⟨δ, hδ⟩ := ih rest ind anns.tail hrest
            refine ⟨Event.write ['\n'] :: (spacesChunks ind 0).map Event.write
              ++ Event.pop :: δ, fun evs => ?_⟩
            rw [bestRun_Space_break]
            simp only [write_newline_trace, checkAnn_trace, h, reduceIte]
            rw [hδ]
            simp
          · obtain ⟨δ, hδ⟩ := ih rest ind anns hrest
            refine ⟨Event.write ['\n'] :: (spacesChunks ind 0).map Event.write
              ++ δ, fun evs => ?_⟩
            rw [bestRun_Space_break]
            simp only [write_newline_trace, checkAnn_trace, h, reduceIte]
            rw [hδ]
            simp
      | Newline =>
        by_cases h : anns.head? = some rest.length
        · obtain ⟨δ, hδ⟩ := ih rest ind anns.tail hrest
          refine ⟨Event.write ['\n'] :: (spacesChunks ind 0).map Event.write
            ++ Event.pop :: δ, fun evs => ?_⟩
          rw [bestRun_Newline]
          simp only [write_newline_trace, checkAnn_trace, h, reduceIte]
          rw [hδ]
          simp
        · obtain ⟨δ, hδ⟩ := ih rest ind anns hrest
          refine ⟨Event.write ['\n'] :: (spacesChunks ind 0).map Event.write
            ++ δ, fun evs => ?_⟩
          rw [bestRun_Newline]
          simp only [write_newline_trace, checkAnn_trace, h, reduceIte]
          rw [hδ]
          simp
      | Text s =>
        by_cases h : anns.head? = some rest.length
        · obtain ⟨δ, hδ⟩ := ih rest (pos + s.length) anns.tail hrest
          refine ⟨(if s.isEmpty then [] else [Event.write s]) ++ Event.pop :: δ,
            fun evs => ?_⟩
          rw [bestRun_Text]
          simp only [write_str_all_trace, checkAnn_trace, h, reduceIte]
          rw [hδ]
          simp
        · obtain ⟨δ, hδ⟩ := ih rest (pos + s.length) anns hrest
          refine ⟨(if s.isEmpty then [] else [Event.write s]) ++ δ, fun evs => ?_⟩
          rw [bestRun_Text]
          simp only [write_str_all_trace, checkAnn_trace, h, reduceIte]
          rw [hδ]
          simp
      | Annotated a d =>
        have hle' : stackSize ((ind, mode, d) :: rest) ≤ n := by
          simp [stackSize, Doc.size] at hle ⊢
          omega
        obtain ⟨δ, hδ⟩ := ih ((ind, mode, d) :: rest) pos (rest.length :: anns) hle'
        refine ⟨Event.push a :: δ, fun evs => ?_⟩
        rw [bestRun_Annotated]
        simp only [traceSink_push]
        rw [hδ]
        simp
      | Union l r =>
        have hle' : ∀ d', d'.size ≤ l.size + r.size →
            stackSize ((ind, mode, d') :: rest) ≤ n := by
          intro d' hd
          simp [stackSize, Doc.size] at hle ⊢
          omega
        by_cases hfit : fitting [l] (rest.map (fun c => c.2.2))
            ((w : Int) - (pos : Int)) Mode.Flat (fun _ => true)
        · obtain ⟨δ, hδ⟩ := ih ((ind, mode, l) :: rest) pos anns (hle' l (by omega))
          refine ⟨δ, fun evs => ?_⟩
          rw [bestRun_union]
          simp only [hfit, if_true, reduceIte]
          rw [hδ]
        · obtain ⟨δ, hδ⟩ := ih ((ind, mode, r) :: rest) pos anns (hle' r (by omega))
          refine ⟨δ, fun evs => ?_⟩
          rw [bestRun_union]
          simp only [hfit, if_false, Bool.false_eq_true, reduceIte]
          rw [hδ]

/-- Running the engine against the canonical sink from any accumulated prefix
appends the trace of the remaining state. -/
theorem bestRun_trace {A : Type} (w : Nat) (bcmds : List (Cmd A)) (pos : Nat)
    (anns : List Nat) (evs : List (Event A)) :
    bestRun (traceSink A) w evs pos bcmds anns =
      .ok (evs ++ traceFrom w pos bcmds anns) := by
  obtain ⟨δ, hδ⟩ := bestRun_trace_exists w (stackSize bcmds) bcmds pos anns le_rfl
  rw [hδ evs]
  simp only [traceFrom, hδ []]
  simp [eventsOf]

/-! ### Decomposition of the canonical trace, one loop step at a time -/

theorem traceFrom_nil {A : Type} (w pos : Nat) (anns : List Nat) :
    traceFrom (A := A) w pos [] anns = [] := by
  simp [traceFrom, bestRun_done, eventsOf]

theorem traceFrom_Nil {A : Type} (w pos ind : Nat) (mode : Mode)
    (rest : List (Cmd A)) (anns : List Nat) :
    traceFrom w pos ((ind, mode, Doc.Nil) :: rest) anns =
      popEv anns rest.length ++ traceFrom w pos rest (nextAnns anns rest.length) := by
  simp only [traceFrom]
  rw [bestRun_Nil]
  simp only [checkAnn_trace, popEv, nextAnns]
  by_cases h : anns.head? = some rest.length <;>
    simp only [h, reduceIte] <;>
    rw [bestRun_trace] <;>
    simp [eventsOf, traceFrom]

theorem traceFrom_Append {A : Type} (w pos ind : Nat) (mode : Mode) (l r : Doc A)
    (rest : List (Cmd A)) (anns : List Nat) :
    traceFrom w pos ((ind, mode, Doc.Append l r) :: rest) anns =
      traceFrom w pos ((ind, mode, l) :: (ind, mode, r) :: rest) anns := by
  simp only [traceFrom, bestRun_Append]

theorem traceFrom_FlatAlt_flat {A : Type} (w pos ind : Nat) (b f : Doc A)
    (rest : List (Cmd A)) (anns : List Nat) :
    traceFrom w pos ((ind, Mode.Flat, Doc.FlatAlt b f) :: rest) anns =
      traceFrom w pos ((ind, Mode.Flat, f) :: rest) anns := by
  simp only [traceFrom, bestRun_FlatAlt_flat]

theorem traceFrom_FlatAlt_break {A : Type} (w pos ind : Nat) (b f : Doc A)
    (rest : List (Cmd A)) (anns : List Nat) :
    traceFrom w pos ((ind, Mode.Break, Doc.FlatAlt b f) :: rest) anns =
      traceFrom w pos ((ind, Mode.Break, b) :: rest) anns := by
  simp only [traceFrom, bestRun_FlatAlt_break]

theorem traceFrom_Group_flat {A : Type} (w pos ind : Nat) (d : Doc A)
    (rest : List (Cmd A)) (anns : List Nat) :
    traceFrom w pos ((ind, Mode.Flat, Doc.Group d) :: rest) anns =
      traceFrom w pos ((ind, Mode.Flat, d) :: rest) anns := by
  simp only [traceFrom, bestRun_Group_flat]

theorem traceFrom_Group_break {A : Type} (w pos ind : Nat) (d : Doc A)
    (rest : List (Cmd A)) (anns : List Nat) :
    traceFrom w pos ((ind, Mode.Break, Doc.Group d) :: rest) anns =
      if fitting [d] (rest.map (fun c => c.2.2)) ((w : Int) - (pos : Int))
          Mode.Flat (fun m => m == Mode.Break) then
        traceFrom w pos ((ind, Mode.Flat, d) :: rest) anns
      else
        traceFrom w pos ((ind, Mode.Break, d) :: rest) anns := by
  simp only [traceFrom, bestRun_Group_break]
  split <;> rfl

theorem traceFrom_Nest {A : Type} (w pos ind off : Nat) (mode : Mode) (d : Doc A)
    (rest : List (Cmd A)) (anns : List Nat) :
    traceFrom w pos ((ind, mode, Doc.Nest off d) :: rest) anns =
      traceFrom w pos ((ind + off, mode, d) :: rest) anns := by
  simp only [traceFrom, bestRun_Nest]

theorem traceFrom_Space_flat {A : Type} (w pos ind : Nat) (rest : List (Cmd A))
    (anns : List Nat) :
    traceFrom w pos ((ind, Mode.Flat, Doc.Space) :: rest) anns =
      spEv 1 ++ popEv anns rest.length ++
        traceFrom w pos rest (nextAnns anns rest.length) := by
  simp only [traceFrom]
  rw [bestRun_Space_flat]
  simp only [write_spaces_trace, checkAnn_trace, spEv, popEv, nextAnns]
  by_cases h : anns.head? = some rest.length <;>
    simp only [h, reduceIte] <;>
    rw [bestRun_trace] <;>
    simp [eventsOf, traceFrom]

theorem traceFrom_Space_break {A : Type} (w pos ind : Nat) (rest : List (Cmd A))
    (anns : List Nat) :
    traceFrom w pos ((ind, Mode.Break, Doc.Space) :: rest) anns =
      nlEv ind ++ popEv anns rest.length ++
        traceFrom w ind rest (nextAnns anns rest.length) := by
  simp only [traceFrom]
  rw [bestRun_Space_break]
  simp only [write_newline_trace, checkAnn_trace, nlEv, spEv, popEv, nextAnns]
  by_cases h : anns.head? = some rest.length <;>
    simp only [h, reduceIte] <;>
    rw [bestRun_trace] <;>
    simp [eventsOf, traceFrom]

theorem traceFrom_Newline {A : Type} (w pos ind : Nat) (mode : Mode)
    (rest : List (Cmd A)) (anns : List Nat) :
    traceFrom w pos ((ind, mode, Doc.Newline) :: rest) anns =
      nlEv ind ++ popEv anns rest.length ++
        traceFrom w ind rest (nextAnns anns rest.length) := by
  simp only [traceFrom]
  rw [bestRun_Newline]
  simp only [write_newline_trace, checkAnn_trace, nlEv, spEv, popEv, nextAnns]
  by_cases h : anns.head? = some rest.length <;>
    simp only [h, reduceIte] <;>
    rw [bestRun_trace] <;>
    simp [eventsOf, traceFrom]

theorem traceFrom_Text {A : Type} (w pos ind : Nat) (mode : Mode) (s : List Char)
    (rest : List (Cmd A)) (anns : List Nat) :
    traceFrom w pos ((ind, mode, Doc.Text s) :: rest) anns =
      wEv s ++ popEv anns rest.length ++
        traceFrom w (pos + s.length) rest (nextAnns anns rest.length) := by
  simp only [traceFrom]
  rw [bestRun_Text]
  simp only [write_str_all_trace, checkAnn_trace, wEv, popEv, nextAnns]
  by_cases h : anns.head? = some rest.length <;>
    simp only [h, reduceIte] <;>
    rw [bestRun_trace] <;>
    simp [eventsOf, traceFrom]

theorem traceFrom_Annotated {A : Type} (w pos ind : Nat) (mode : Mode) (a : A)
    (d : Doc A) (rest : List (Cmd A)) (anns : List Nat) :
    traceFrom w pos ((ind, mode, Doc.Annotated a d) :: rest) anns =
      Event.push a :: traceFrom w pos ((ind, mode, d) :: rest)
        (rest.length :: anns) := by
  simp only [traceFrom]
  rw [bestRun_Annotated]
  simp only [traceSink_push]
  rw [bestRun_trace]
  simp [eventsOf, traceFrom]

theorem traceFrom_Union {A : Type} (w pos ind : Nat) (mode : Mode) (l r : Doc A)
    (rest : List (Cmd A)) (anns : List Nat) :
    traceFrom w pos ((ind, mode, Doc.Union l r) :: rest) anns =
      if fitting [l] (rest.map (fun c => c.2.2)) ((w : Int) - (pos : Int))
          Mode.Flat (fun _ => true) then
        traceFrom w pos ((ind, mode, l) :: rest) anns
      else
        traceFrom w pos ((ind, mode, r) :: rest) anns := by
  simp only [traceFrom, bestRun_union]
  split <;> rfl

/-! ### The fits-on-one-line law: auxiliary lemmas -/

theorem chars_popEv {A : Type} (anns : List Nat) (n : Nat) :
    chars (popEv (A := A) anns n) = [] := by
  simp only [popEv]
  split <;> simp [chars]

theorem chars_wEv {A : Type} (s : List Char) :
    chars (wEv (A := A) s) = s := by
  simp only [wEv]
  split <;> rename_i h <;> simp [chars]
  simpa [List.isEmpty_iff] using h

theorem chars_spEv {A : Type} (n : Nat) :
    chars (spEv (A := A) n) = List.replicate n ' ' := by
  simpa [spEv] using spacesChunks_chars (A := A) n 0

/-- If the probe succeeds while the simulated mode is still `Flat` and a hard
newline does not count as fitting in `Flat` mode, then no `Newline` lies on
the flat path of any candidate document (given that no `Union` does: the
probe would descend into a `Union`'s second alternative, the renderer into
the first). -/
theorem fitting_flat_nlFree {A : Type} (nf : Mode → Bool)
    (hnf : nf Mode.Flat = false) :
    ∀ (n : Nat) (fs bs : List (Doc A)) (rem : Int),
      (fs.map Doc.size).sum ≤ n →
      fitting fs bs rem Mode.Flat nf = true →
      (∀ d ∈ fs, unionFreeFlat d = true) →
      ∀ d ∈ fs, nlFreeFlat d = true := by
  intro n
  induction n with
  | zero =>
    intro fs bs rem hle hfit hUF d hd
    cases fs with
    | nil => simp at hd
    | cons c fs' =>
      exfalso
      have := Doc.size_pos c
      simp at hle
      omega
  | succ n ih =>
    intro fs bs rem hle hfit hUF d hd
    cases fs with
    | nil => simp at hd
    | cons doc fs' =>
      have hUF' : ∀ d ∈ fs', unionFreeFlat d = true :=
        fun d hd => hUF d (List.mem_cons_of_mem _ hd)
      have hUFdoc : unionFreeFlat doc = true := hUF doc (List.mem_cons_self doc fs')
      rcases List.mem_cons.mp hd with hdh | hdt
      all_goals cases doc with
      | Nil =>
        rw [fitting_Nil] at hfit
        have hle' : (fs'.map Doc.size).sum ≤ n := by
          simp [Doc.size] at hle ⊢; omega
        first
        | (subst hdh; simp [nlFreeFlat])
        | exact ih fs' bs rem hle' hfit hUF' d hdt
      | Append l r =>
        rw [fitting_Append] at hfit
        have hle' : ((l :: r :: fs').map Doc.size).sum ≤ n := by
          simp [Doc.size] at hle ⊢; omega
        have hUF2 : ∀ x ∈ l :: r :: fs', unionFreeFlat x = true := by
          intro x hx
          rcases List.mem_cons.mp hx with h1 | hx
          · subst h1
            simp [unionFreeFlat] at hUFdoc
            exact hUFdoc.1
          rcases List.mem_cons.mp hx with h1 | hx
          · subst h1
            simp [unionFreeFlat] at hUFdoc
            exact hUFdoc.2
          · exact hUF' x hx
        have hall := ih (l :: r :: fs') bs rem hle' hfit hUF2
        first
        | (subst hdh
           simp only [nlFreeFlat, Bool.and_eq_true]
           exact ⟨hall l (by simp), hall r (by simp)⟩)
        | exact hall d (by simp [hdt])
      | Text s =>
        rw [fitting_Text] at hfit
        split at hfit
        · exact absurd hfit (by simp)
        · have hle' : (fs'.map Doc.size).sum ≤ n := by
            simp [Doc.size] at hle ⊢; omega
          first
          | (subst hdh; simp [nlFreeFlat])
          | exact ih fs' bs _ hle' hfit hUF' d hdt
      | Space =>
        rw [fitting_Space_flat] at hfit
        split at hfit
        · exact absurd hfit (by simp)
        · have hle' : (fs'.map Doc.size).sum ≤ n := by
            simp [Doc.size] at hle ⊢; omega
          first
          | (subst hdh; simp [nlFreeFlat])
          | exact ih fs' bs _ hle' hfit hUF' d hdt
      | Newline =>
        rw [fitting_Newline, hnf] at hfit
        exact absurd hfit (by simp)
      | FlatAlt b f =>
        rw [fitting_FlatAlt_flat] at hfit
        have hle' : ((f :: fs').map Doc.size).sum ≤ n := by
          simp [Doc.size] at hle ⊢; omega
        have hUF2 : ∀ x ∈ f :: fs', unionFreeFlat x = true := by
          intro x hx
          rcases List.mem_cons.mp hx with h1 | hx
          · subst h1
            simpa [unionFreeFlat] using hUFdoc
          · exact hUF' x hx
        have hall := ih (f :: fs') bs rem hle' hfit hUF2
        first
        | (subst hdh
           simp only [nlFreeFlat]
           exact hall f (by simp))
        | exact hall d (by simp [hdt])
      | Nest off g =>
        rw [fitting_Nest] at hfit
        have hle' : ((g :: fs').map Doc.size).sum ≤ n := by
          simp [Doc.size] at hle ⊢; omega
        have hUF2 : ∀ x ∈ g :: fs', unionFreeFlat x = true := by
          intro x hx
          rcases List.mem_cons.mp hx with h1 | hx
          · subst h1
            simpa [unionFreeFlat] using hUFdoc
          · exact hUF' x hx
        have hall := ih (g :: fs') bs rem hle' hfit hUF2
        first
        | (subst hdh
           simp only [nlFreeFlat]
           exact hall g (by simp))
        | exact hall d (by simp [hdt])
      | Group g =>
        rw [fitting_Group] at hfit
        have hle' : ((g :: fs').map Doc.size).sum ≤ n := by
          simp [Doc.size] at hle ⊢; omega
        have hUF2 : ∀ x ∈ g :: fs', unionFreeFlat x = true := by
          intro x hx
          rcases List.mem_cons.mp hx with h1 | hx
          · subst h1
            simpa [unionFreeFlat] using hUFdoc
          · exact hUF' x hx
        have hall := ih (g :: fs') bs rem hle' hfit hUF2
        first
        | (subst hdh
           simp only [nlFreeFlat]
           exact hall g (by simp))
        | exact hall d (by simp [hdt])
      | Annotated a g =>
        rw [fitting_Annotated] at hfit
        have hle' : ((g :: fs').map Doc.size).sum ≤ n := by
          simp [Doc.size] at hle ⊢; omega
        have hUF2 : ∀ x ∈ g :: fs', unionFreeFlat x = true := by
          intro x hx
          rcases List.mem_cons.mp hx with h1 | hx
          · subst h1
            simpa [unionFreeFlat] using hUFdoc
          · exact hUF' x hx
        have hall := ih (g :: fs') bs rem hle' hfit hUF2
        first
        | (subst hdh
           simp only [nlFreeFlat]
           exact hall g (by simp))
        | exact hall d (by simp [hdt])
      | Union l r =>
        exfalso
        simp [unionFreeFlat] at hUFdoc

/-- Rendering a document in `Flat` mode on top of any pending stack emits
events whose characters are exactly the flattened text, and then continues
with the pending stack, the column advanced by the text lengths (flat spaces
do not advance it — see C2). -/
theorem bestRun_flat_emit {A : Type} (w : Nat) :
    ∀ (d : Doc A) (ind pos : Nat) (rest : List (Cmd A)) (anns : List Nat),
      unionFreeFlat d = true → nlFreeFlat d = true →
      ∃ (evMid : List (Event A)) (anns2 : List Nat),
        traceFrom w pos ((ind, Mode.Flat, d) :: rest) anns =
          evMid ++ traceFrom w (pos + textAdv d) rest anns2 ∧
        chars evMid = flatText d := by
  intro d
  induction d with
  | Nil =>
    intro ind pos rest anns _ _
    refine ⟨popEv anns rest.length, nextAnns anns rest.length, ?_, ?_⟩
    · rw [traceFrom_Nil]
      simp [textAdv]
    · simp [chars_popEv, flatText]
  | Append l r ihl ihr =>
    intro ind pos rest anns hUF hNL
    simp only [unionFreeFlat, Bool.and_eq_true] at hUF
    simp only [nlFreeFlat, Bool.and_eq_true] at hNL
    obtain ⟨e1, a1, h1, hc1⟩ :=
      ihl ind pos ((ind, Mode.Flat, r) :: rest) anns hUF.1 hNL.1
    obtain ⟨e2, a2, h2, hc2⟩ := ihr ind (pos + textAdv l) rest a1 hUF.2 hNL.2
    refine ⟨e1 ++ e2, a2, ?_, ?_⟩
    · rw [traceFrom_Append, h1, h2]
      simp [textAdv, Nat.add_assoc]
    · simp [hc1, hc2, flatText]
  | Text s =>
    intro ind pos rest anns _ _
    refine ⟨wEv s ++ popEv anns rest.length, nextAnns anns rest.length, ?_, ?_⟩
    · rw [traceFrom_Text]
      simp [textAdv]
    · simp [chars_wEv, chars_popEv, flatText]
  | Space =>
    intro ind pos rest anns _ _
    refine ⟨spEv 1 ++ popEv anns rest.length, nextAnns anns rest.length, ?_, ?_⟩
    · rw [traceFrom_Space_flat]
      simp [textAdv]
    · simp [chars_spEv, chars_popEv, flatText, List.replicate]
  | Newline =>
    intro ind pos rest anns _ hNL
    simp [nlFreeFlat] at hNL
  | FlatAlt b f ihb ihf =>
    intro ind pos rest anns hUF hNL
    simp only [unionFreeFlat] at hUF
    simp only [nlFreeFlat] at hNL
    obtain ⟨e1, a1, h1, hc1⟩ := ihf ind pos rest anns hUF hNL
    exact ⟨e1, a1, by rw [traceFrom_FlatAlt_flat]; simpa [textAdv] using h1,
      by simpa [flatText] using hc1⟩
  | Nest off g ihg =>
    intro ind pos rest anns hUF hNL
    simp only [unionFreeFlat] at hUF
    simp only [nlFreeFlat] at hNL
    obtain ⟨e1, a1, h1, hc1⟩ := ihg (ind + off) pos rest anns hUF hNL
    exact ⟨e1, a1, by rw [traceFrom_Nest]; simpa [textAdv] using h1,
      by simpa [flatText] using hc1⟩
  | Group g ihg =>
    intro ind pos rest anns hUF hNL
    simp only [unionFreeFlat] at hUF
    simp only [nlFreeFlat] at hNL
    obtain ⟨e1, a1, h1, hc1⟩ := ihg ind pos rest anns hUF hNL
    exact ⟨e1, a1, by rw [traceFrom_Group_flat]; simpa [textAdv] using h1,
      by simpa [flatText] using hc1⟩
  | Annotated a g ihg =>
    intro ind pos rest anns hUF hNL
    simp only [unionFreeFlat] at hUF
    simp only [nlFreeFlat] at hNL
    obtain ⟨e1, a1, h1, hc1⟩ := ihg ind pos rest (rest.length :: anns) hUF hNL
    refine ⟨Event.push a :: e1, a1, ?_, ?_⟩
    · rw [traceFrom_Annotated, h1]
      simp [textAdv]
    · simp [chars, hc1, flatText]
  | Union l r ihl ihr =>
    intro ind pos rest anns hUF _
    simp [unionFreeFlat] at hUF

/-- On a `Union`-free flat path with no hard newline, the flattened text
contains a newline character only if some `Text` atom does. -/
theorem flatText_no_newline {A : Type} :
    ∀ (d : Doc A), unionFreeFlat d = true → nlFreeFlat d = true →
      textsNLFree d = true → '\n' ∉ flatText d := by
  intro d
  induction d with
  | Nil => intro _ _ _; simp [flatText]
  | Append l r ihl ihr =>
    intro hUF hNL hT
    simp only [unionFreeFlat, Bool.and_eq_true] at hUF
    simp only [nlFreeFlat, Bool.and_eq_true] at hNL
    simp only [textsNLFree, Bool.and_eq_true] at hT
    simp only [flatText, List.mem_append]
    push_neg
    exact ⟨ihl hUF.1 hNL.1 hT.1, ihr hUF.2 hNL.2 hT.2⟩
  | Text s =>
    intro _ _ hT
    simp only [textsNLFree, Bool.not_eq_true'] at hT
    simpa [flatText] using hT
  | Space => intro _ _ _; simp [flatText]
  | Newline => intro _ hNL _; simp [nlFreeFlat] at hNL
  | FlatAlt b f ihb ihf =>
    intro hUF hNL hT
    exact ihf (by simpa [unionFreeFlat] using hUF) (by simpa [nlFreeFlat] using hNL)
      (by simpa [textsNLFree] using hT)
  | Nest off g ihg =>
    intro hUF hNL hT
    exact ihg (by simpa [unionFreeFlat] using hUF) (by simpa [nlFreeFlat] using hNL)
      (by simpa [textsNLFree] using hT)
  | Group g ihg =>
    intro hUF hNL hT
    exact ihg (by simpa [unionFreeFlat] using hUF) (by simpa [nlFreeFlat] using hNL)
      (by simpa [textsNLFree] using hT)
  | Annotated a g ihg =>
    intro hUF hNL hT
    exact ihg (by simpa [unionFreeFlat] using hUF) (by simpa [nlFreeFlat] using hNL)
      (by simpa [textsNLFree] using hT)
  | Union l r ihl ihr =>
    intro hUF _ _
    simp [unionFreeFlat] at hUF

/-! ### Replaying the canonical trace against an arbitrary sink -/

theorem processEvents_append {σ E A : Type} (snk : Sink σ E A) (st : σ)
    (l1 l2 : List (Event A)) :
    processEvents snk st (l1 ++ l2) =
      match processEvents snk st l1 with
      | .error e => .error e
      | .ok st' => processEvents snk st' l2 := by
  induction l1 generalizing st with
  | nil => simp [processEvents]
  | cons e es ih =>
    simp only [List.cons_append, processEvents]
    cases applyEvent snk st e with
    | error err => rfl
    | ok st' => exact ih st'

/-- One `write_str_all` call is exactly the delivery of its `wEv` event. -/
theorem write_str_all_events {σ E A : Type} (snk : Sink σ E A) (st : σ)
    (s : List Char) :
    write_str_all snk st s = processEvents snk st (wEv s) := by
  cases s with
  | nil =>
    rw [write_str_all]
    simp [wEv, processEvents]
  | cons c t =>
    simp only [wEv, List.isEmpty_cons, Bool.false_eq_true, if_false, reduceIte,
      processEvents, applyEvent]
    cases write_str_all snk st (c :: t) with
    | error e => rfl
    | ok st' => simp [processEvents]

/-- Under a fully-consuming-or-erroring sink, `write_spaces_go` is the
delivery of its chunk events. -/
theorem write_spaces_go_events {σ E A : Type} (snk : Sink σ E A)
    (hfe : FullOrErr snk) (spaces : Nat) :
    ∀ inserted (st : σ),
      write_spaces_go snk st spaces inserted =
        processEvents snk st ((spacesChunks spaces inserted).map Event.write) := by
  intro inserted
  induction inserted using spacesChunks.induct spaces with
  | case1 inserted hlt ih =>
    intro st
    have hlen : (SPACES.take (min SPACES.length (spaces - inserted))).length
        = min SPACES.length (spaces - inserted) := by simp [SPACES]
    obtain ⟨a, l, hcon⟩ : ∃ a l,
        SPACES.take (min SPACES.length (spaces - inserted)) = a :: l := by
      cases hc : SPACES.take (min SPACES.length (spaces - inserted)) with
      | nil =>
        exfalso
        have := congrArg List.length hc
        rw [hlen] at this
        simp [SPACES] at this
        omega
      | cons a l => exact ⟨a, l, rfl⟩
    have hlen2 : (a :: l).length = min SPACES.length (spaces - inserted) :=
      hcon ▸ hlen
    rw [write_spaces_go, spacesChunks]
    simp only [hlt, if_true, List.map_cons, processEvents, applyEvent, hcon]
    rw [write_str_all]
    rcases hfe st (a :: l) with ⟨e, he⟩ | ⟨st1, hok⟩
    · simp only [he]
    · simp only [hok]
      have hlenpos : 0 < (a :: l).length := by simp
      rw [dif_pos hlenpos, dif_pos hlenpos, List.drop_length, write_str_all]
      rw [hlen2, ih st1]
  | case2 inserted hlt =>
    intro st
    rw [write_spaces_go, spacesChunks]
    simp [hlt, processEvents]

/-- Under a fully-consuming-or-erroring sink, `write_spaces` is the delivery
of its chunk events. -/
theorem write_spaces_events {σ E A : Type} (snk : Sink σ E A)
    (hfe : FullOrErr snk) (st : σ) (n : Nat) :
    write_spaces snk st n = processEvents snk st (spEv n) := by
  rw [write_spaces, write_spaces_go_events snk hfe n 0 st]
  rfl

/-- Under a fully-consuming-or-erroring sink, `write_newline` is the delivery
of its events. -/
theorem write_newline_events {σ E A : Type} (snk : Sink σ E A)
    (hfe : FullOrErr snk) (st : σ) (ind : Nat) :
    write_newline snk st ind = processEvents snk st (nlEv ind) := by
  rw [write_newline]
  simp only [nlEv, processEvents, applyEvent]
  cases write_str_all snk st ['\n'] with
  | error e => rfl
  | ok st' => exact write_spaces_events snk hfe st' ind

/-- `checkAnn` equals the delivery of its (possible) pop event, paired with
the updated annotation levels. -/
theorem checkAnn_eq_processEvents {σ E A : Type} (snk : Sink σ E A) (st : σ)
    (depth : Nat) (anns : List Nat) :
    checkAnn snk st depth anns =
      (match processEvents snk st (popEv (A := A) anns depth) with
       | .error e => .error e
       | .ok st' => .ok (st', nextAnns anns depth)) := by
  rw [checkAnn]
  simp only [popEv, nextAnns]
  split
  · simp only [processEvents, applyEvent]
    cases snk.popAnn st with
    | error e => rfl
    | ok st' => simp [processEvents]
  · simp [processEvents]

/-- Replaying: against any sink whose `write_str` either fails or consumes
its chunk in full, the render loop behaves exactly like delivering the
canonical event trace one event at a time, stopping at the first error and
returning it unchanged. -/
theorem bestRun_events {σ E A : Type} (snk : Sink σ E A) (hfe : FullOrErr snk)
    (w : Nat) :
    ∀ (n : Nat) (bcmds : List (Cmd A)) (pos : Nat) (anns : List Nat) (st : σ),
      stackSize bcmds ≤ n →
      bestRun snk w st pos bcmds anns =
        processEvents snk st (traceFrom w pos bcmds anns) := by
  intro n
  induction n with
  | zero =>
    intro bcmds pos anns st hle
    cases bcmds with
    | nil => rw [bestRun_done, traceFrom_nil]; rfl
    | cons c rest =>
      exfalso
      have := Doc.size_pos c.2.2
      simp [stackSize] at hle
      omega
  | succ n ih =>
    intro bcmds pos anns st hle
    cases bcmds with
    | nil => rw [bestRun_done, traceFrom_nil]; rfl
    | cons c rest =>
      obtain ⟨ind, mode, doc⟩ := c
      have hrest : stackSize rest ≤ n := by
        have := Doc.size_pos doc
        simp [stackSize, Doc.size] at hle ⊢
        omega
      cases doc with
      | Nil =>
        rw [bestRun_Nil, traceFrom_Nil, processEvents_append,
          checkAnn_eq_processEvents]
        cases processEvents snk st (popEv anns rest.length) with
        | error e => rfl
        | ok st1 => exact ih rest pos (nextAnns anns rest.length) st1 hrest
      | Append l r =>
        have hle' : stackSize ((ind, mode, l) :: (ind, mode, r) :: rest) ≤ n := by
          simp [stackSize, Doc.size] at hle ⊢
          omega
        rw [bestRun_Append, traceFrom_Append]
        exact ih _ pos anns st hle'
      | FlatAlt b f =>
        cases mode with
        | Flat =>
          have hle' : stackSize ((ind, Mode.Flat, f) :: rest) ≤ n := by
            simp [stackSize, Doc.size] at hle ⊢
            omega
          rw [bestRun_FlatAlt_flat, traceFrom_FlatAlt_flat]
          exact ih _ pos anns st hle'
        | Break =>
          have hle' : stackSize ((ind, Mode.Break, b) :: rest) ≤ n := by
            simp [stackSize, Doc.size] at hle ⊢
            omega
          rw [bestRun_FlatAlt_break, traceFrom_FlatAlt_break]
          exact ih _ pos anns st hle'
      | Group d =>
        have hle' : ∀ m, stackSize ((ind, m, d) :: rest) ≤ n := by
          intro m
          simp [stackSize, Doc.size] at hle ⊢
          omega
        cases mode with
        | Flat =>
          rw [bestRun_Group_flat, traceFrom_Group_flat]
          exact ih _ pos anns st (hle' _)
        | Break =>
          rw [bestRun_Group_break, traceFrom_Group_break]
          by_cases hfit : fitting [d] (rest.map (fun c => c.2.2))
              ((w : Int) - (pos : Int)) Mode.Flat (fun m => m == Mode.Break) <;>
            simp only [hfit, reduceIte, Bool.false_eq_true] <;>
            exact ih _ pos anns st (hle' _)
      | Nest off d =>
        have hle' : stackSize ((ind + off, mode, d) :: rest) ≤ n := by
          simp [stackSize, Doc.size] at hle ⊢
          omega
        rw [bestRun_Nest, traceFrom_Nest]
        exact ih _ pos anns st hle'
      | Space =>
        cases mode with
        | Flat =>
          rw [bestRun_Space_flat, traceFrom_Space_flat, processEvents_append,
            processEvents_append, ← write_spaces_events snk hfe st 1]
          cases write_spaces snk st 1 with
          | error e => rfl
          | ok st1 =>
            simp only []
            rw [checkAnn_eq_processEvents]
            cases processEvents snk st1 (popEv anns rest.length) with
            | error e => rfl
            | ok st2 => exact ih rest pos (nextAnns anns rest.length) st2 hrest
        | Break =>
          rw [bestRun_Space_break, traceFrom_Space_break, processEvents_append,
            processEvents_append, ← write_newline_events snk hfe st ind]
          cases write_newline snk st ind with
          | error e => rfl
          | ok st1 =>
            simp only []
            rw [checkAnn_eq_processEvents]
            cases processEvents snk st1 (popEv anns rest.length) with
            | error e => rfl
            | ok st2 => exact ih rest ind (nextAnns anns rest.length) st2 hrest
      | Newline =>
        rw [bestRun_Newline, traceFrom_Newline, processEvents_append,
          processEvents_append, ← write_newline_events snk hfe st ind]
        cases write_newline snk st ind with
        | error e => rfl
        | ok st1 =>
          simp only []
          rw [checkAnn_eq_processEvents]
          cases processEvents snk st1 (popEv anns rest.length) with
          | error e => rfl
          | ok st2 => exact ih rest ind (nextAnns anns rest.length) st2 hrest
      | Text s =>
        rw [bestRun_Text, traceFrom_Text, processEvents_append,
          processEvents_append, ← write_str_all_events snk st s]
        cases write_str_all snk st s with
        | error e => rfl
        | ok st1 =>
          simp only []
          rw [checkAnn_eq_processEvents]
          cases processEvents snk st1 (popEv anns rest.length) with
          | error e => rfl
          | ok st2 => exact ih rest (pos + s.length) (nextAnns anns rest.length) st2 hrest
      | Annotated a d =>
        have hle' : stackSize ((ind, mode, d) :: rest) ≤ n := by
          simp [stackSize, Doc.size] at hle ⊢
          omega
        rw [bestRun_Annotated, traceFrom_Annotated]
        simp only [processEvents, applyEvent]
        cases snk.pushAnn st a with
        | error e => rfl
        | ok st1 => exact ih _ pos (rest.length :: anns) st1 hle'
      | Union l r =>
        have hle' : ∀ d', d'.size ≤ l.size + r.size →
            stackSize ((ind, mode, d') :: rest) ≤ n := by
          intro d' hd
          simp [stackSize, Doc.size] at hle ⊢
          omega
        rw [bestRun_union, traceFrom_Union]
        by_cases hfit : fitting [l] (rest.map (fun c => c.2.2))
            ((w : Int) - (pos : Int)) Mode.Flat (fun _ => true)
        · simp only [hfit, reduceIte]
          exact ih _ pos anns st (hle' l (by omega))
        · simp only [hfit, Bool.false_eq_true, reduceIte]
          exact ih _ pos anns st (hle' r (by omega))

/-! ### Delivery against recording sinks (partial writes allowed) -/

theorem annEvents_wEv {A : Type} (s : List Char) :
    annEvents (wEv (A := A) s) = [] := by
  simp only [wEv]
  split <;> simp [annEvents]

theorem annEvents_popEv {A : Type} (anns : List Nat) (n : Nat) :
    annEvents (popEv (A := A) anns n) = popEv anns n := by
  simp only [popEv]
  split <;> simp [annEvents]

theorem annEvents_spEv {A : Type} (n : Nat) :
    annEvents (spEv (A := A) n) = [] := by
  simp [spEv]

theorem chars_nlEv {A : Type} (ind : Nat) :
    chars (nlEv (A := A) ind) = '\n' :: List.replicate ind ' ' := by
  simp [nlEv, chars, chars_spEv]

theorem annEvents_nlEv {A : Type} (ind : Nat) :
    annEvents (nlEv (A := A) ind) = [] := by
  simp [nlEv, annEvents, annEvents_spEv]

/-- A recording sink accepts a whole chunk across the retries of
`write_str_all`, appending exactly the chunk to its output. -/
theorem recording_write_str_all {σ E A : Type} {snk : Sink σ E A}
    {out : σ → List Char} {annp : σ → List (Event A)}
    (hr : Recording snk out annp) :
    ∀ (n : Nat) (s : List Char) (st : σ), s.length ≤ n →
      ∃ st', write_str_all snk st s = .ok st' ∧
        out st' = out st ++ s ∧ annp st' = annp st := by
  intro n
  induction n with
  | zero =>
    intro s st hle
    cases s with
    | nil => exact ⟨st, by rw [write_str_all], by simp, rfl⟩
    | cons c t => simp at hle
  | succ n ih =>
    intro s st hle
    cases s with
    | nil => exact ⟨st, by rw [write_str_all], by simp, rfl⟩
    | cons c t =>
      obtain ⟨cnt, st1, hw⟩ := hr.write_total st (c :: t)
      obtain ⟨ho1, ha1⟩ := hr.write_ok st (c :: t) cnt st1 hw
      obtain ⟨hpos, hcle⟩ := hr.write_progress st (c :: t) cnt st1 (by simp) hw
      obtain ⟨st2, h2, ho2, ha2⟩ := ih ((c :: t).drop cnt) st1 (by
        simp only [List.length_drop, List.length_cons] at *
        omega)
      refine ⟨st2, ?_, ?_, ?_⟩
      · rw [write_str_all]
        simp only [hw]
        rw [dif_pos hpos]
        exact h2
      · rw [ho2, ho1, List.append_assoc, List.take_append_drop]
      · rw [ha2, ha1]

/-- A recording sink accepts `write_spaces_go`, appending exactly the
remaining spaces to its output. -/
theorem recording_write_spaces_go {σ E A : Type} {snk : Sink σ E A}
    {out : σ → List Char} {annp : σ → List (Event A)}
    (hr : Recording snk out annp) :
    ∀ (n spaces inserted : Nat) (st : σ), spaces - inserted ≤ n →
      ∃ st', write_spaces_go snk st spaces inserted = .ok st' ∧
        out st' = out st ++ List.replicate (spaces - inserted) ' ' ∧
        annp st' = annp st := by
  intro n
  induction n with
  | zero =>
    intro spaces inserted st hle
    have hnlt : ¬ inserted < spaces := by omega
    refine ⟨st, by rw [write_spaces_go]; simp [hnlt], ?_, rfl⟩
    have : spaces - inserted = 0 := by omega
    simp [this]
  | succ n ih =>
    intro spaces inserted st hle
    by_cases hlt : inserted < spaces
    · have hsl : SPACES.length = 100 := by simp [SPACES]
      have hchunk : SPACES.take (min SPACES.length (spaces - inserted))
          = List.replicate (min SPACES.length (spaces - inserted)) ' ' := by
        rw [hsl, SPACES, List.take_replicate]
        congr 1
        omega
      have hck : (SPACES.take (min SPACES.length (spaces - inserted))).length
          = min SPACES.length (spaces - inserted) := by
        rw [hchunk, List.length_replicate]
      obtain ⟨cnt, st1, hw⟩ := hr.write_total st
        (SPACES.take (min SPACES.length (spaces - inserted)))
      obtain ⟨ho1, ha1⟩ := hr.write_ok st _ cnt st1 hw
      obtain ⟨hpos, hcle⟩ := hr.write_progress st _ cnt st1 (by
        intro hcon
        have := congrArg List.length hcon
        rw [hck, hsl] at this
        simp at this
        omega) hw
      rw [hck] at hcle
      have hcle2 : cnt ≤ spaces - inserted := by omega
      obtain ⟨st2, h2, ho2, ha2⟩ := ih spaces (inserted + cnt) st1 (by omega)
      refine ⟨st2, ?_, ?_, ?_⟩
      · rw [write_spaces_go]
        simp only [hlt, if_true, hw]
        rw [dif_pos hpos]
        exact h2
      · rw [ho2, ho1, hchunk, List.take_replicate, List.append_assoc,
          ← List.replicate_add]
        congr 2
        omega
      · rw [ha2, ha1]
    · refine ⟨st, by rw [write_spaces_go]; simp [hlt], ?_, rfl⟩
      have : spaces - inserted = 0 := by omega
      simp [this]

/-- A recording sink accepts `write_newline`, appending a newline and the
indent spaces. -/
theorem recording_write_newline {σ E A : Type} {snk : Sink σ E A}
    {out : σ → List Char} {annp : σ → List (Event A)}
    (hr : Recording snk out annp) (st : σ) (ind : Nat) :
    ∃ st', write_newline snk st ind = .ok st' ∧
      out st' = out st ++ '\n' :: List.replicate ind ' ' ∧
      annp st' = annp st := by
  obtain ⟨st1, h1, ho1, ha1⟩ := recording_write_str_all hr 1 ['\n'] st (by simp)
  obtain ⟨st2, h2, ho2, ha2⟩ := recording_write_spaces_go hr ind ind 0 st1 (by omega)
  refine ⟨st2, ?_, ?_, ?_⟩
  · rw [write_newline]
    simp only [h1]
    exact h2
  · rw [ho2, ho1]
    simp
  · rw [ha2, ha1]

/-- A recording sink accepts `checkAnn`, recording the pop event when it
fires. -/
theorem recording_checkAnn {σ E A : Type} {snk : Sink σ E A}
    {out : σ → List Char} {annp : σ → List (Event A)}
    (hr : Recording snk out annp) (st : σ) (depth : Nat) (anns : List Nat) :
    ∃ st', checkAnn snk st depth anns = .ok (st', nextAnns anns depth) ∧
      out st' = out st ∧ annp st' = annp st ++ popEv anns depth := by
  rw [checkAnn]
  simp only [popEv, nextAnns]
  split
  · obtain ⟨st', hp, ho, ha⟩ := hr.pop_ok st
    exact ⟨st', by simp only [hp], ho, ha⟩
  · exact ⟨st, rfl, rfl, by simp⟩

/-- Delivery: a recording sink (any split of partial writes, never failing)
receives, over the whole render, exactly the canonical characters and the
canonical annotation events. -/
theorem bestRun_recording {σ E A : Type} {snk : Sink σ E A}
    {out : σ → List Char} {annp : σ → List (Event A)}
    (hr : Recording snk out annp) (w : Nat) :
    ∀ (n : Nat) (bcmds : List (Cmd A)) (pos : Nat) (anns : List Nat) (st : σ),
      stackSize bcmds ≤ n →
      ∃ st', bestRun snk w st pos bcmds anns = .ok st' ∧
        out st' = out st ++ chars (traceFrom w pos bcmds anns) ∧
        annp st' = annp st ++ annEvents (traceFrom w pos bcmds anns) := by
  intro n
  induction n with
  | zero =>
    intro bcmds pos anns st hle
    cases bcmds with
    | nil =>
      refine ⟨st, by rw [bestRun_done], ?_, ?_⟩ <;> simp [traceFrom_nil, chars, annEvents]
    | cons c rest =>
      exfalso
      have := Doc.size_pos c.2.2
      simp [stackSize] at hle
      omega
  | succ n ih =>
    intro bcmds pos anns st hle
    cases bcmds with
    | nil =>
      refine ⟨st, by rw [bestRun_done], ?_, ?_⟩ <;> simp [traceFrom_nil, chars, annEvents]
    | cons c rest =>
      obtain ⟨ind, mode, doc⟩ := c
      have hrest : stackSize rest ≤ n := by
        have := Doc.size_pos doc
        simp [stackSize, Doc.size] at hle ⊢
        omega
      cases doc with
      | Nil =>
        obtain ⟨st1, hca, ho1, ha1⟩ := recording_checkAnn hr st rest.length anns
        obtain ⟨st2, hrun, ho2, ha2⟩ := ih rest pos (nextAnns anns rest.length) st1 hrest
        refine ⟨st2, ?_, ?_, ?_⟩
        · rw [bestRun_Nil]
          simp only [hca]
          exact hrun
        · rw [traceFrom_Nil, ho2, ho1]
          simp [chars_popEv]
        · rw [traceFrom_Nil, ha2, ha1]
          simp [annEvents_popEv]
      | Append l r =>
        have hle' : stackSize ((ind, mode, l) :: (ind, mode, r) :: rest) ≤ n := by
          simp [stackSize, Doc.size] at hle ⊢
          omega
        obtain ⟨st1, hrun, ho, ha⟩ := ih _ pos anns st hle'
        exact ⟨st1, by rw [bestRun_Append]; exact hrun,
          by rw [traceFrom_Append]; exact ho,
          by rw [traceFrom_Append]; exact ha⟩
      | FlatAlt b f =>
        cases mode with
        | Flat =>
          have hle' : stackSize ((ind, Mode.Flat, f) :: rest) ≤ n := by
            simp [stackSize, Doc.size] at hle ⊢
            omega
          obtain ⟨st1, hrun, ho, ha⟩ := ih _ pos anns st hle'
          exact ⟨st1, by rw [bestRun_FlatAlt_flat]; exact hrun,
            by rw [traceFrom_FlatAlt_flat]; exact ho,
            by rw [traceFrom_FlatAlt_flat]; exact ha⟩
        | Break =>
          have hle' : stackSize ((ind, Mode.Break, b) :: rest) ≤ n := by
            simp [stackSize, Doc.size] at hle ⊢
            omega
          obtain ⟨st1, hrun, ho, ha⟩ := ih _ pos anns st hle'
          exact ⟨st1, by rw [bestRun_FlatAlt_break]; exact hrun,
            by rw [traceFrom_FlatAlt_break]; exact ho,
            by rw [traceFrom_FlatAlt_break]; exact ha⟩
      | Group d =>
        have hle' : ∀ m, stackSize ((ind, m, d) :: rest) ≤ n := by
          intro m
          simp [stackSize, Doc.size] at hle ⊢
          omega
        cases mode with
        | Flat =>
          obtain ⟨st1, hrun, ho, ha⟩ := ih _ pos anns st (hle' _)
          exact ⟨st1, by rw [bestRun_Group_flat]; exact hrun,
            by rw [traceFrom_Group_flat]; exact ho,
            by rw [traceFrom_Group_flat]; exact ha⟩
        | Break =>
          by_cases hfit : fitting [d] (rest.map (fun c => c.2.2))
              ((w : Int) - (pos : Int)) Mode.Flat (fun m => m == Mode.Break)
          · obtain ⟨st1, hrun, ho, ha⟩ := ih _ pos anns st (hle' Mode.Flat)
            refine ⟨st1, ?_, ?_, ?_⟩ <;>
              [rw [bestRun_Group_break]; rw [traceFrom_Group_break];
                rw [traceFrom_Group_break]] <;>
              simp only [hfit, reduceIte] <;>
              [exact hrun; exact ho; exact ha]
          · obtain ⟨st1, hrun, ho, ha⟩ := ih _ pos anns st (hle' Mode.Break)
            refine ⟨st1, ?_, ?_, ?_⟩ <;>
              [rw [bestRun_Group_break]; rw [traceFrom_Group_break];
                rw [traceFrom_Group_break]] <;>
              simp only [hfit, Bool.false_eq_true, reduceIte] <;>
              [exact hrun; exact ho; exact ha]
      | Nest off d =>
        have hle' : stackSize ((ind + off, mode, d) :: rest) ≤ n := by
          simp [stackSize, Doc.size] at hle ⊢
          omega
        obtain ⟨st1, hrun, ho, ha⟩ := ih _ pos anns st hle'
        exact ⟨st1, by rw [bestRun_Nest]; exact hrun,
          by rw [traceFrom_Nest]; exact ho,
          by rw [traceFrom_Nest]; exact ha⟩
      | Space =>
        cases mode with
        | Flat =>
          obtain ⟨st1, hws, ho1, ha1⟩ := recording_write_spaces_go hr 1 1 0 st (by omega)
          obtain ⟨st2, hca, ho2, ha2⟩ := recording_checkAnn hr st1 rest.length anns
          obtain ⟨st3, hrun, ho3, ha3⟩ := ih rest pos (nextAnns anns rest.length) st2 hrest
          refine ⟨st3, ?_, ?_, ?_⟩
          · rw [bestRun_Space_flat, write_spaces]
            simp only [hws, hca]
            exact hrun
          · rw [traceFrom_Space_flat, ho3, ho2, ho1]
            simp [chars_spEv, chars_popEv]
          · rw [traceFrom_Space_flat, ha3, ha2, ha1]
            simp [annEvents_spEv, annEvents_popEv]
        | Break =>
          obtain ⟨st1, hnl, ho1, ha1⟩ := recording_write_newline hr st ind
          obtain ⟨st2, hca, ho2, ha2⟩ := recording_checkAnn hr st1 rest.length anns
          obtain ⟨st3, hrun, ho3, ha3⟩ := ih rest ind (nextAnns anns rest.length) st2 hrest
          refine ⟨st3, ?_, ?_, ?_⟩
          · rw [bestRun_Space_break]
            simp only [hnl, hca]
            exact hrun
          · rw [traceFrom_Space_break, ho3, ho2, ho1]
            simp [chars_nlEv, chars_popEv]
          · rw [traceFrom_Space_break, ha3, ha2, ha1]
            simp [annEvents_nlEv, annEvents_popEv]
      | Newline =>
        obtain ⟨st1, hnl, ho1, ha1⟩ := recording_write_newline hr st ind
        obtain ⟨st2, hca, ho2, ha2⟩ := recording_checkAnn hr st1 rest.length anns
        obtain ⟨st3, hrun, ho3, ha3⟩ := ih rest ind (nextAnns anns rest.length) st2 hrest
        refine ⟨st3, ?_, ?_, ?_⟩
        · rw [bestRun_Newline]
          simp only [hnl, hca]
          exact hrun
        · rw [traceFrom_Newline, ho3, ho2, ho1]
          simp [chars_nlEv, chars_popEv]
        · rw [traceFrom_Newline, ha3, ha2, ha1]
          simp [annEvents_nlEv, annEvents_popEv]
      | Text s =>
        obtain ⟨st1, hws, ho1, ha1⟩ := recording_write_str_all hr s.length s st le_rfl
        obtain ⟨st2, hca, ho2, ha2⟩ := recording_checkAnn hr st1 rest.length anns
        obtain ⟨st3, hrun, ho3, ha3⟩ := ih rest (pos + s.length)
          (nextAnns anns rest.length) st2 hrest
        refine ⟨st3, ?_, ?_, ?_⟩
        · rw [bestRun_Text]
          simp only [hws, hca]
          exact hrun
        · rw [traceFrom_Text, ho3, ho2, ho1]
          simp [chars_wEv, chars_popEv]
        · rw [traceFrom_Text, ha3, ha2, ha1]
          simp [annEvents_wEv, annEvents_popEv]
      | Annotated a d =>
        have hle' : stackSize ((ind, mode, d) :: rest) ≤ n := by
          simp [stackSize, Doc.size] at hle ⊢
          omega
        obtain ⟨st1, hp, ho1, ha1⟩ := hr.push_ok st a
        obtain ⟨st2, hrun, ho2, ha2⟩ := ih ((ind, mode, d) :: rest) pos
          (rest.length :: anns) st1 hle'
        refine ⟨st2, ?_, ?_, ?_⟩
        · rw [bestRun_Annotated]
          simp only [hp]
          exact hrun
        · rw [traceFrom_Annotated, ho2, ho1]
          simp [chars]
        · rw [traceFrom_Annotated, ha2, ha1]
          simp [annEvents]
      | Union l r =>
        have hle' : ∀ d', d'.size ≤ l.size + r.size →
            stackSize ((ind, mode, d') :: rest) ≤ n := by
          intro d' hd
          simp [stackSize, Doc.size] at hle ⊢
          omega
        by_cases hfit : fitting [l] (rest.map (fun c => c.2.2))
            ((w : Int) - (pos : Int)) Mode.Flat (fun _ => true)
        · obtain ⟨st1, hrun, ho, ha⟩ := ih ((ind, mode, l) :: rest) pos anns st
            (hle' l (by omega))
          refine ⟨st1, ?_, ?_, ?_⟩ <;>
            [rw [bestRun_union]; rw [traceFrom_Union]; rw [traceFrom_Union]] <;>
            simp only [hfit, reduceIte] <;>
            [exact hrun; exact ho; exact ha]
        · obtain ⟨st1, hrun, ho, ha⟩ := ih ((ind, mode, r) :: rest) pos anns st
            (hle' r (by omega))
          refine ⟨st1, ?_, ?_, ?_⟩ <;>
            [rw [bestRun_union]; rw [traceFrom_Union]; rw [traceFrom_Union]] <;>
            simp only [hfit, Bool.false_eq_true, reduceIte] <;>
            [exact hrun; exact ho; exact ha]

theorem oneCharSink_recording (A : Type) :
    Recording (oneCharSink A) Prod.fst Prod.snd := by
  constructor
  · intro st s c st' h
    simp only [oneCharSink, Except.ok.injEq, Prod.mk.injEq] at h
    obtain ⟨hc, hst⟩ := h
    subst hc
    rw [← hst]
    exact ⟨rfl, rfl⟩
  · intro st s c st' hne h
    simp only [oneCharSink, Except.ok.injEq, Prod.mk.injEq] at h
    obtain ⟨hc, _⟩ := h
    subst hc
    cases s with
    | nil => exact absurd rfl hne
    | cons a l => simp
  · intro st s
    exact ⟨min 1 s.length, (st.1 ++ s.take (min 1 s.length), st.2), rfl⟩
  · intro st a
    exact ⟨(st.1, st.2 ++ [Event.push a]), rfl, rfl, rfl⟩
  · intro st
    exact ⟨(st.1, st.2 ++ [Event.pop]), rfl, rfl, rfl⟩

theorem fullSink_recording (A : Type) :
    Recording (fullSink A) Prod.fst Prod.snd := by
  constructor
  · intro st s c st' h
    simp only [fullSink, Except.ok.injEq, Prod.mk.injEq] at h
    obtain ⟨hc, hst⟩ := h
    subst hc
    rw [← hst]
    simp
  · intro st s c st' hne h
    simp only [fullSink, Except.ok.injEq, Prod.mk.injEq] at h
    obtain ⟨hc, _⟩ := h
    subst hc
    cases s with
    | nil => exact absurd rfl hne
    | cons a l => simp
  · intro st s
    exact ⟨s.length, (st.1 ++ s, st.2), rfl⟩
  · intro st a
    exact ⟨(st.1, st.2 ++ [Event.push a]), rfl, rfl, rfl⟩
  · intro st
    exact ⟨(st.1, st.2 ++ [Event.pop]), rfl, rfl, rfl⟩

/-! ### Claim theorems -/

/-- C1: the claim states that rendering always issues equally many
`push_annotation` and `pop_annotation` calls, correctly nested.  The code
violates it: for `Annotated 0 (Annotated 1 (Text "x"))` at width 10 the
engine issues two pushes but only one pop — the per-iteration annotation
check (`if`, not `while`) fires at most once even when two recorded levels
coincide, and the remaining level is dropped when the work stack empties. -/
theorem C1_annotation_balance_bug :
    countPush (renderEvents (Doc.Annotated (0 : Nat)
        (Doc.Annotated 1 (Doc.Text ['x']))) 10) = 2 ∧
    countPop (renderEvents (Doc.Annotated (0 : Nat)
        (Doc.Annotated 1 (Doc.Text ['x']))) 10) = 1 := by
  constructor <;>
    simp [renderEvents, best, bestRun, checkAnn, write_str_all, traceSink,
      eventsOf, countPush, countPop]

/-- C2: the claim states that a `Space` rendered in `Flat` mode writes one
space and advances the column by one.  The code writes the space but leaves
`pos` unchanged: the step equation below shows `pos` passed through, and at
the concrete document the stale column makes the subsequent `Union` probe
succeed with budget `7 - 4` instead of `7 - 6`, so the wide alternative
`"EEE"` is chosen and the line overflows (with a correct column the output
would be `"ab cd f"`). -/
theorem C2_flat_space_column_bug :
    (∀ (σ E A : Type) (snk : Sink σ E A) (width : Nat) (st : σ)
      (pos ind : Nat) (rest : List (Cmd A)) (anns : List Nat),
      bestRun snk width st pos ((ind, Mode.Flat, Doc.Space) :: rest) anns =
        match write_spaces snk st 1 with
        | .error e => .error e
        | .ok st' =>
          match checkAnn snk st' rest.length anns with
          | .error e => .error e
          | .ok (st'', anns') => bestRun snk width st'' pos rest anns') ∧
    chars (renderEvents (Doc.Group (Doc.Append (Doc.Text ['a','b'])
      (Doc.Append Doc.Space (Doc.Append (Doc.Text ['c','d'])
        (Doc.Append Doc.Space
          (Doc.Union (Doc.Text ['E','E','E']) (Doc.Text ['f']) : Doc Nat)))))) 7)
      = ['a','b',' ','c','d',' ','E','E','E'] := by
  constructor
  · intro σ E A snk width st pos ind rest anns
    exact bestRun_Space_flat snk width st pos ind rest anns
  · simp [renderEvents, best, bestRun, checkAnn, write_str_all, write_spaces,
      write_spaces_go, SPACES, traceSink, eventsOf, fitting, chars]

/-- C3 counterexample: the claim as stated is false.  For the group
`Text "ab" ⧺ Space ⧺ Text "cd"` (flattened length 5 ≤ available width 6 when
encountered in Break mode at column 0) followed by `Text "xyz"`, the fitting
probe also simulates the pending continuation, fails, and the group is
rendered broken: the output contains a newline inside the group and differs
from the flat-form rendering `"ab cd" ++ "xyz"`. -/
theorem C3_counterexample :
    flatLen (Doc.Append (Doc.Text ['a','b'])
        (Doc.Append Doc.Space (Doc.Text ['c','d'])) : Doc Nat) ≤ 6 - 0 ∧
    chars (renderEvents (Doc.Append
      (Doc.Group (Doc.Append (Doc.Text ['a','b'])
        (Doc.Append Doc.Space (Doc.Text ['c','d']))))
      (Doc.Text ['x','y','z']) : Doc Nat) 6)
      = ['a','b','\n','c','d','x','y','z'] ∧
    flatText (Doc.Append (Doc.Text ['a','b'])
        (Doc.Append Doc.Space (Doc.Text ['c','d'])) : Doc Nat) ++ ['x','y','z']
      = ['a','b',' ','c','d','x','y','z'] := by
  refine ⟨by simp [flatLen], ?_, by simp [flatText]⟩
  simp [renderEvents, best, bestRun, checkAnn, write_str_all, write_spaces,
    write_spaces_go, write_newline, SPACES, traceSink, eventsOf, fitting, chars]

/-- C3 amended: for every `Union`-free `Group` encountered in `Break` mode
whose fitting probe succeeds at that point — in particular, when its fully
flattened text length plus the pending same-line continuation fits the
available width, and always when it is the last content and its flattened
length is at most `width - column` — the group's content is rendered in
`Flat` mode and contributes exactly the characters of its flat form, with no
newline inside provided its `Text` atoms contain none. -/
theorem C3_fits_flat_amended {A : Type} (inner : Doc A) (w pos ind : Nat)
    (rest : List (Cmd A)) (anns : List Nat)
    (hUF : unionFreeFlat inner = true)
    (hfit : fitting [inner] (rest.map (fun c => c.2.2)) ((w : Int) - (pos : Int))
      Mode.Flat (fun m => m == Mode.Break) = true) :
    ∃ (evMid : List (Event A)) (anns2 : List Nat),
      traceFrom w pos ((ind, Mode.Break, Doc.Group inner) :: rest) anns =
        evMid ++ traceFrom w (pos + textAdv inner) rest anns2 ∧
      chars evMid = flatText inner ∧
      (textsNLFree inner = true → '\n' ∉ chars evMid) := by
  have hNL : nlFreeFlat inner = true := by
    refine fitting_flat_nlFree (fun m => m == Mode.Break) (by rfl)
      (([inner].map Doc.size).sum) [inner] (rest.map (fun c => c.2.2)) _ le_rfl
      hfit ?_ inner (by simp)
    intro d hd
    simp at hd
    subst hd
    exact hUF
  obtain ⟨evMid, anns2, hsplit, hchars⟩ :=
    bestRun_flat_emit w inner ind pos rest anns hUF hNL
  refine ⟨evMid, anns2, ?_, hchars, ?_⟩
  · rw [traceFrom_Group_break]
    simp only [hfit, reduceIte]
    exact hsplit
  · intro hT
    rw [hchars]
    exact flatText_no_newline inner hUF hNL hT

/-- C3 witness: the amended law at the concrete group
`Text "foo" ⧺ Space ⧺ Text "bar"` rendered alone at width 10. -/
theorem C3_fits_flat_amended_witness :
    ∃ (evMid : List (Event Nat)) (anns2 : List Nat),
      traceFrom 10 0 [(0, Mode.Break, Doc.Group (Doc.Append (Doc.Text ['f','o','o'])
          (Doc.Append Doc.Space (Doc.Text ['b','a','r']))))] [] =
        evMid ++ traceFrom 10 (0 + textAdv (Doc.Append (Doc.Text ['f','o','o'])
          (Doc.Append Doc.Space (Doc.Text ['b','a','r'])) : Doc Nat)) [] anns2 ∧
      chars evMid = flatText (Doc.Append (Doc.Text ['f','o','o'])
          (Doc.Append Doc.Space (Doc.Text ['b','a','r'])) : Doc Nat) ∧
      (textsNLFree (Doc.Append (Doc.Text ['f','o','o'])
          (Doc.Append Doc.Space (Doc.Text ['b','a','r'])) : Doc Nat) = true →
        '\n' ∉ chars evMid) :=
  C3_fits_flat_amended (Doc.Append (Doc.Text ['f','o','o'])
      (Doc.Append Doc.Space (Doc.Text ['b','a','r'])))
    10 0 0 [] []
    (by simp [unionFreeFlat])
    (by simp [fitting])

/-- C4: when the render loop processes `Union(l, r)` it computes the budget
`width - pos` (as signed integers), probes `l` against the pending work stack
with the always-true newline predicate, continues into `l` on success and
into `r` otherwise, passing `ind` and `mode` through unchanged in both
branches. -/
theorem C4_union_step :
    ∀ (σ E A : Type) (snk : Sink σ E A) (width : Nat) (st : σ) (pos ind : Nat)
      (mode : Mode) (l r : Doc A) (rest : List (Cmd A)) (anns : List Nat),
      bestRun snk width st pos ((ind, mode, Doc.Union l r) :: rest) anns =
        if fitting [l] (rest.map (fun c => c.2.2)) ((width : Int) - (pos : Int))
            Mode.Flat (fun _ => true) then
          bestRun snk width st pos ((ind, mode, l) :: rest) anns
        else
          bestRun snk width st pos ((ind, mode, r) :: rest) anns :=
  fun σ E A snk width st pos ind mode l r rest anns =>
    bestRun_union snk width st pos ind mode l r rest anns

/-- C5 counterexample: the claim says the probe, after exhausting the
candidate, simulates the pending work-stack items "in their already-decided
mode".  The code forces `Break` instead: for candidate `Text "aaa"` with the
pending item `Space ⧺ Text "cccc"` recorded in `Flat` mode and budget 6 the
code's probe succeeds (the pending `Space`, simulated in `Break` mode, ends
the check), while the spec-modelled probe that honours the recorded `Flat`
mode runs out of budget and fails. -/
theorem C5_counterexample :
    fitting [Doc.Text ['a','a','a']]
      [Doc.Append Doc.Space (Doc.Text ['c','c','c','c'] : Doc Nat)] 6
      Mode.Flat (fun _ => true) = true ∧
    fittingSpec [Doc.Text ['a','a','a']]
      [(Mode.Flat, Doc.Append Doc.Space (Doc.Text ['c','c','c','c'] : Doc Nat))] 6
      Mode.Flat (fun _ => true) = false := by
  constructor
  · simp [fitting]
  · simp [fittingSpec]

/-- C5 amended: the fitting probe simulates in `Flat` mode from the
candidate, subtracting each `Text` length (failing as soon as the budget is
negative), subtracting one for a flat `Space` (failing if negative),
succeeding immediately on a `Space` in simulated `Break` mode, answering
`newline_fits mode` on a `Newline`, and — once the candidate list is
exhausted — continuing into the pending work-stack items in `Break` mode
(not in their recorded mode), succeeding when everything is exhausted. -/
theorem C5_fitting_probe_amended {A : Type} :
    (∀ (s : List Char) (fs bs : List (Doc A)) (rem : Int) (mode : Mode)
      (nf : Mode → Bool),
      fitting (Doc.Text s :: fs) bs rem mode nf =
        if rem - (s.length : Int) < 0 then false
        else fitting fs bs (rem - (s.length : Int)) mode nf) ∧
    (∀ (fs bs : List (Doc A)) (rem : Int) (nf : Mode → Bool),
      fitting (Doc.Space :: fs) bs rem Mode.Flat nf =
        if rem - 1 < 0 then false else fitting fs bs (rem - 1) Mode.Flat nf) ∧
    (∀ (fs bs : List (Doc A)) (rem : Int) (nf : Mode → Bool),
      fitting (Doc.Space :: fs) bs rem Mode.Break nf = true) ∧
    (∀ (fs bs : List (Doc A)) (rem : Int) (mode : Mode) (nf : Mode → Bool),
      fitting (Doc.Newline :: fs) bs rem mode nf = nf mode) ∧
    (∀ (d : Doc A) (bs : List (Doc A)) (rem : Int) (mode : Mode)
      (nf : Mode → Bool),
      fitting [] (d :: bs) rem mode nf = fitting [d] bs rem Mode.Break nf) ∧
    (∀ (rem : Int) (mode : Mode) (nf : Mode → Bool),
      fitting ([] : List (Doc A)) [] rem mode nf = true) :=
  ⟨fun s fs bs rem mode nf => fitting_Text s fs bs rem mode nf,
   fun fs bs rem nf => fitting_Space_flat fs bs rem nf,
   fun fs bs rem nf => fitting_Space_break fs bs rem nf,
   fun fs bs rem mode nf => fitting_Newline fs bs rem mode nf,
   fun d bs rem mode nf => fitting_next_bcmd d bs rem mode nf,
   fun rem mode nf => fitting_done rem mode nf⟩

/-- C6: `Nest(off, inner)` continues into `inner` with the indentation
increased by `off` (additive with enclosing `Nest`s, mode unchanged), and
for the concrete document `Nest 1 (Nest 2 (Newline ⧺ Text "x") ⧺ Newline ⧺
Text "y")` at width 20 the inner break is indented by 1+2 = 3 spaces while
the break after the inner scope is indented by the outer 1 again. -/
theorem C6_nest_indentation :
    (∀ (σ E A : Type) (snk : Sink σ E A) (width : Nat) (st : σ)
      (pos ind off : Nat) (mode : Mode) (d : Doc A) (rest : List (Cmd A))
      (anns : List Nat),
      bestRun snk width st pos ((ind, mode, Doc.Nest off d) :: rest) anns =
        bestRun snk width st pos ((ind + off, mode, d) :: rest) anns) ∧
    chars (renderEvents (Doc.Nest 1 (Doc.Append
      (Doc.Nest 2 (Doc.Append Doc.Newline (Doc.Text ['x'])))
      (Doc.Append Doc.Newline (Doc.Text ['y']))) : Doc Nat) 20)
      = ['\n',' ',' ',' ','x','\n',' ','y'] := by
  constructor
  · intro σ E A snk width st pos ind off mode d rest anns
    exact bestRun_Nest snk width st pos ind mode off d rest anns
  · simp [renderEvents, best, bestRun, checkAnn, write_str_all, write_spaces,
      write_spaces_go, write_newline, SPACES, traceSink, eventsOf, fitting, chars]

/-- C7: a `Text` atom is written to the sink in full (`write_str_all` loops
until the whole chunk is consumed — against the canonical sink it delivers
exactly one chunk holding the whole atom) and the column advances by its
length, with no width check: concretely, `Group (Text "abcdef")` at width 3
still outputs `"abcdef"` unbroken and untruncated. -/
theorem C7_text_atom :
    (∀ (σ E A : Type) (snk : Sink σ E A) (width : Nat) (st : σ) (pos ind : Nat)
      (mode : Mode) (s : List Char) (rest : List (Cmd A)) (anns : List Nat),
      bestRun snk width st pos ((ind, mode, Doc.Text s) :: rest) anns =
        match write_str_all snk st s with
        | .error e => .error e
        | .ok st' =>
          match checkAnn snk st' rest.length anns with
          | .error e => .error e
          | .ok (st'', anns') => bestRun snk width st'' (pos + s.length) rest anns') ∧
    (∀ (A : Type) (evs : List (Event A)) (s : List Char),
      write_str_all (traceSink A) evs s =
        .ok (evs ++ if s.isEmpty then [] else [Event.write s])) ∧
    chars (renderEvents (Doc.Group (Doc.Text ['a','b','c','d','e','f']) : Doc Nat) 3)
      = ['a','b','c','d','e','f'] := by
  refine ⟨?_, ?_, ?_⟩
  · intro σ E A snk width st pos ind mode s rest anns
    exact bestRun_Text snk width st pos ind mode s rest anns
  · intro A evs s
    exact write_str_all_trace evs s
  · simp [renderEvents, best, bestRun, checkAnn, write_str_all, traceSink,
      eventsOf, fitting, chars]

/-- C8: error propagation.  First part: against any sink whose `write_str`
either fails or consumes its chunk in full, `best` behaves exactly like
delivering the canonical event trace one sink call at a time — so the first
error a call returns becomes the result of `best` unchanged, no later event
is delivered, and everything already delivered stands (the engine performs no
compensating calls).  Second part: an incomplete write is not an error — for
any recording sink that consumes only part of each chunk (but makes
progress), `write_str_all` succeeds and the sink ends up having accepted the
whole chunk, delivered in order. -/
theorem C8_error_propagation :
    (∀ (σ E A : Type) (snk : Sink σ E A), FullOrErr snk →
      ∀ (st : σ) (doc : Doc A) (w : Nat),
        best snk st doc w = processEvents snk st (renderEvents doc w)) ∧
    (∀ (σ E A : Type) (snk : Sink σ E A) (out : σ → List Char)
      (annp : σ → List (Event A)), Recording snk out annp →
      ∀ (st : σ) (s : List Char),
        ∃ st', write_str_all snk st s = .ok st' ∧ out st' = out st ++ s) := by
  constructor
  · intro σ E A snk hfe st doc w
    rw [best]
    rw [bestRun_events snk hfe w (stackSize [(0, Mode.Break, doc)])
      [(0, Mode.Break, doc)] 0 [] st le_rfl]
    rfl
  · intro σ E A snk out annp hr st s
    obtain ⟨st', h1, h2, _⟩ := recording_write_str_all hr s.length s st le_rfl
    exact ⟨st', h1, h2⟩

/-- C8 witness: the replay equation at a sink that fails every call with the
error value 7, and the retry property at the one-character-per-call sink. -/
theorem C8_error_propagation_witness :
    (best (failSink Nat Nat 7) () (Doc.Text ['h','i']) 5 =
      processEvents (failSink Nat Nat 7) ()
        (renderEvents (Doc.Text ['h','i']) 5)) ∧
    (∃ st', write_str_all (oneCharSink Nat) (([], []) : List Char × List (Event Nat))
        ['a','b'] = .ok st' ∧ st'.1 = ([] : List Char) ++ ['a','b']) :=
  ⟨C8_error_propagation.1 Unit Nat Nat (failSink Nat Nat 7)
      (fun _ _ => Or.inl ⟨7, rfl⟩) () (Doc.Text ['h','i']) 5,
   C8_error_propagation.2 (List Char × List (Event Nat)) Empty Nat
      (oneCharSink Nat) Prod.fst Prod.snd (oneCharSink_recording Nat)
      ([], []) ['a','b']⟩

/-- C9: determinism and sink-independence.  For any two recording sinks —
each free to split partial writes however it likes, and never failing —
rendering the same document at the same width succeeds on both and delivers
to both exactly the same character sequence (the canonical one) and exactly
the same annotation push/pop sequence.  The engine itself is a pure function
of `(doc, width)`; no state persists between calls. -/
theorem C9_determinism {σ1 σ2 E1 E2 A : Type} (snk1 : Sink σ1 E1 A)
    (snk2 : Sink σ2 E2 A) (out1 : σ1 → List Char) (annp1 : σ1 → List (Event A))
    (out2 : σ2 → List Char) (annp2 : σ2 → List (Event A))
    (h1 : Recording snk1 out1 annp1) (h2 : Recording snk2 out2 annp2)
    (doc : Doc A) (w : Nat) (st1 : σ1) (st2 : σ2) :
    ∃ st1' st2',
      best snk1 st1 doc w = .ok st1' ∧ best snk2 st2 doc w = .ok st2' ∧
      out1 st1' = out1 st1 ++ chars (renderEvents doc w) ∧
      out2 st2' = out2 st2 ++ chars (renderEvents doc w) ∧
      annp1 st1' = annp1 st1 ++ annEvents (renderEvents doc w) ∧
      annp2 st2' = annp2 st2 ++ annEvents (renderEvents doc w) := by
  obtain ⟨st1', e1, o1, a1⟩ := bestRun_recording h1 w
    (stackSize [(0, Mode.Break, doc)]) [(0, Mode.Break, doc)] 0 [] st1 le_rfl
  obtain ⟨st2', e2, o2, a2⟩ := bestRun_recording h2 w
    (stackSize [(0, Mode.Break, doc)]) [(0, Mode.Break, doc)] 0 [] st2 le_rfl
  exact ⟨st1', st2', e1, e2, o1, o2, a1, a2⟩

/-- C9 witness: the one-character-per-call sink and the full-chunk sink
produce identical outputs for an annotated document at width 10. -/
theorem C9_determinism_witness :
    ∃ (st1' st2' : List Char × List (Event Nat)),
      best (oneCharSink Nat) ([], []) (Doc.Annotated 5 (Doc.Append
        (Doc.Text ['a','b']) (Doc.Append Doc.Space (Doc.Text ['c','d'])))) 10
        = .ok st1' ∧
      best (fullSink Nat) ([], []) (Doc.Annotated 5 (Doc.Append
        (Doc.Text ['a','b']) (Doc.Append Doc.Space (Doc.Text ['c','d'])))) 10
        = .ok st2' ∧
      st1'.1 = ([] : List Char) ++ chars (renderEvents (Doc.Annotated 5 (Doc.Append
        (Doc.Text ['a','b']) (Doc.Append Doc.Space (Doc.Text ['c','d'])))) 10) ∧
      st2'.1 = ([] : List Char) ++ chars (renderEvents (Doc.Annotated 5 (Doc.Append
        (Doc.Text ['a','b']) (Doc.Append Doc.Space (Doc.Text ['c','d'])))) 10) ∧
      st1'.2 = ([] : List (Event Nat)) ++ annEvents (renderEvents (Doc.Annotated 5
        (Doc.Append (Doc.Text ['a','b'])
          (Doc.Append Doc.Space (Doc.Text ['c','d'])))) 10) ∧
      st2'.2 = ([] : List (Event Nat)) ++ annEvents (renderEvents (Doc.Annotated 5
        (Doc.Append (Doc.Text ['a','b'])
          (Doc.Append Doc.Space (Doc.Text ['c','d'])))) 10) :=
  C9_determinism (oneCharSink Nat) (fullSink Nat) Prod.fst Prod.snd
    Prod.fst Prod.snd (oneCharSink_recording Nat) (fullSink_recording Nat)
    (Doc.Annotated 5 (Doc.Append (Doc.Text ['a','b'])
      (Doc.Append Doc.Space (Doc.Text ['c','d'])))) 10 ([], []) ([], [])

/-- C10: when the fitting probe encounters a `Union` node it descends into
the second (broken) alternative only; the first alternative is ignored
entirely, so the probe's verdict is invariant under replacing it. -/
theorem C10_probe_union_transparent {A : Type} :
    (∀ (l r : Doc A) (fs bs : List (Doc A)) (rem : Int) (mode : Mode)
      (nf : Mode → Bool),
      fitting (Doc.Union l r :: fs) bs rem mode nf = fitting (r :: fs) bs rem mode nf) ∧
    (∀ (l l' r : Doc A) (fs bs : List (Doc A)) (rem : Int) (mode : Mode)
      (nf : Mode → Bool),
      fitting (Doc.Union l r :: fs) bs rem mode nf =
        fitting (Doc.Union l' r :: fs) bs rem mode nf) := by
  constructor
  · intro l r fs bs rem mode nf
    exact fitting_Union l r fs bs rem mode nf
  · intro l l' r fs bs rem mode nf
    rw [fitting_Union, fitting_Union]

end PrettyRender
